import Mathlib

/-!
# YHString: a shallow embedding of `include/YHString.h`

The class `YHString` holds a `std::variant` over three storage strategies
(`ShortStringOptImpl`, `EagerCopyImpl`, `CopyOnWriteImpl`).  The embedding keeps
the pointer structure of the C++ code explicit:

* `State.heap` holds the blocks obtained from `std::malloc`; a block's address is
  its position in the list.  Blocks are never freed or reused in the model, so a
  fresh block has an address no live pointer holds.
* `State.resources` holds the `Resource` objects created by `std::make_shared`;
  a `std::shared_ptr<Resource>` is the position of the resource.
* `State.objects` holds the `YHString` objects (their member `v`); the address of
  an object is its position, which is what `this != &rhs` and `&lhs != &rhs`
  compare.
* `State.slack p` is what lies in memory directly behind block `p`.  The buffers
  the code allocates carry no terminating zero byte, yet `std::strlen` is run on
  them; such a read runs past the block and sees `slack p`.  The program never
  writes there.

Every `std::malloc(n)` of the source is followed at once by a `std::memcpy` of
exactly `n` bytes into the new block, so the two are modelled as one step.

`YHString.cc` holds an earlier copy of the class with `topThreshold = 23` and an
inline array of `3 * sizeof(nullptr)` cells; the definitions whose names end in
`Cap`, and `ccConstructInline`, embed its `ShortStringOptImpl`.
-/

namespace YHString

/-- A `char`. -/
abbrev Byte := Fin 256

/-- `constexpr int topThreshold = 16;` -/
def topThreshold : Nat := 16

/-- `constexpr int bottomThreshold = 255;` -/
def bottomThreshold : Nat := 255

/-- The ways an operation can fail to return: `outOfRange` is the thrown
`std::out_of_range(outOfRangeMsg)`; `undefined` marks behaviour the model does
not follow (a read that leaves the modelled memory, a write outside a buffer,
the use of an uninitialised result, an address that holds no object). -/
inductive Error where
  | outOfRange
  | undefined
  deriving DecidableEq, Repr

/-- The `EagerCopyImpl` members; `start` is the address of a heap block. -/
structure EagerCopyImpl where
  size : Nat
  capacity : Nat
  start : Nat
  deriving DecidableEq, Repr

/-- The `CopyOnWriteImpl::Resource` members; `start` is the address of a heap block. -/
structure Resource where
  size : Nat
  capacity : Nat
  start : Nat
  deriving DecidableEq, Repr

/-- The `CopyOnWriteImpl` member `res`: the address of a `Resource`. -/
structure CopyOnWriteImpl where
  res : Nat
  deriving DecidableEq, Repr

/-- The `ShortStringOptImpl` members.  `buf` lists the initialised cells of
`char buf[topThreshold]`; every `memcpy` into `buf` starts at cell 0, so these
always form a prefix of the array. -/
structure ShortStringOptImpl where
  size : Nat
  buf : List Byte
  deriving DecidableEq, Repr

/-- The alternatives of
`std::variant<std::monostate, EagerCopyImpl, CopyOnWriteImpl, ShortStringOptImpl>`. -/
inductive InnerImpls where
  | monostate
  | eagerCopy (e : EagerCopyImpl)
  | copyOnWrite (c : CopyOnWriteImpl)
  | shortStringOpt (s : ShortStringOptImpl)
  deriving DecidableEq, Repr

/-- The value of `std::variant::index()`. -/
def InnerImpls.index : InnerImpls → Nat
  | .monostate => 0
  | .eagerCopy _ => 1
  | .copyOnWrite _ => 2
  | .shortStringOpt _ => 3

/-- A `char*`: a position in a heap block or in the `buf` of an object. -/
inductive Ptr where
  | heap (block : Nat) (offset : Nat)
  | inline (object : Nat) (offset : Nat)
  deriving DecidableEq, Repr

/-- The memory the program works on. -/
structure State where
  slack : Nat → List Byte
  heap : List (List Byte)
  resources : List Resource
  objects : List InnerImpls

/-- The state before the program has allocated anything. -/
def State.init (slack : Nat → List Byte) : State :=
  { slack := slack, heap := [], resources := [], objects := [] }

/-- `std::strlen`: the number of bytes before the first zero byte; `none` when
the modelled memory ends before a zero byte is found. -/
def strlen : List Byte → Option Nat
  | [] => none
  | b :: bs => if b = 0 then some 0 else (strlen bs).map (· + 1)

/-- `std::strlen` as a step that can fail. -/
def cStrlen (mem : List Byte) : Except Error Nat :=
  match strlen mem with
  | some n => .ok n
  | none => .error .undefined

/-- The bytes a read starting at the first byte of block `p` sees. -/
def State.view (st : State) (p : Nat) : Except Error (List Byte) :=
  match st.heap[p]? with
  | some b => .ok (b ++ st.slack p)
  | none => .error .undefined

/-- The pair `std::malloc(n)`, `std::memcpy(start, src, n)`: a new block holding the
first `n` bytes found at `src`. -/
def State.mallocMemcpy (st : State) (src : List Byte) (n : Nat) : Except Error (State × Nat) :=
  if n ≤ src.length then
    .ok ({ st with heap := st.heap ++ [src.take n] }, st.heap.length)
  else .error .undefined

/-- `std::make_shared<Resource>`: stores the resource and returns its address. -/
def State.makeShared (st : State) (r : Resource) : State × Nat :=
  ({ st with resources := st.resources ++ [r] }, st.resources.length)

/-- The object at address `a`. -/
def State.object (st : State) (a : Nat) : Except Error InnerImpls :=
  match st.objects[a]? with
  | some v => .ok v
  | none => .error .undefined

/-- The resource at address `r`. -/
def State.resource (st : State) (r : Nat) : Except Error Resource :=
  match st.resources[r]? with
  | some x => .ok x
  | none => .error .undefined

/-- A new object holding `v`; returns its address. -/
def State.newObject (st : State) (v : InnerImpls) : State × Nat :=
  ({ st with objects := st.objects ++ [v] }, st.objects.length)

/-- `EagerCopyImpl(const char* str)`. -/
def EagerCopyImpl.ofCStr (st : State) (str : List Byte) : Except Error (State × EagerCopyImpl) :=
  match cStrlen str with
  | .error e => .error e
  | .ok size =>
    match st.mallocMemcpy str size with
    | .error e => .error e
    | .ok (st1, start) => .ok (st1, { size := size, capacity := size, start := start })

/-- `EagerCopyImpl(const EagerCopyImpl& rhs)`. -/
def EagerCopyImpl.copy (st : State) (rhs : EagerCopyImpl) : Except Error (State × EagerCopyImpl) :=
  match st.view rhs.start with
  | .error e => .error e
  | .ok src =>
    match st.mallocMemcpy src rhs.capacity with
    | .error e => .error e
    | .ok (st1, start) =>
      .ok (st1, { size := rhs.size, capacity := rhs.capacity, start := start })

/-- `EagerCopyImpl::operator=`; `same` is `this == &rhs`. -/
def EagerCopyImpl.assign (st : State) (self rhs : EagerCopyImpl) (same : Bool) :
    Except Error (State × EagerCopyImpl) :=
  if same then .ok (st, self)
  else
    match st.view rhs.start with
    | .error e => .error e
    | .ok src =>
      match st.mallocMemcpy src rhs.capacity with
      | .error e => .error e
      | .ok (st1, start) =>
        .ok (st1, { size := rhs.size, capacity := rhs.capacity, start := start })

/-- `EagerCopyImpl::operator[]`. -/
def EagerCopyImpl.subscript (self : EagerCopyImpl) (index : Nat) : Except Error Ptr :=
  if index < self.size then .ok (.heap self.start index)
  else .error .outOfRange

/-- `Resource(const char* str)`. -/
def Resource.ofCStr (st : State) (str : List Byte) : Except Error (State × Resource) :=
  match cStrlen str with
  | .error e => .error e
  | .ok size =>
    match st.mallocMemcpy str size with
    | .error e => .error e
    | .ok (st1, start) => .ok (st1, { size := size, capacity := size, start := start })

/-- `CopyOnWriteImpl(const char* str) : res(std::make_shared<Resource>(str))`. -/
def CopyOnWriteImpl.ofCStr (st : State) (str : List Byte) :
    Except Error (State × CopyOnWriteImpl) :=
  match Resource.ofCStr st str with
  | .error e => .error e
  | .ok (st1, r) =>
    let (st2, p) := st1.makeShared r
    .ok (st2, { res := p })

/-- `CopyOnWriteImpl(const CopyOnWriteImpl& rhs) : res(rhs.res)`. -/
def CopyOnWriteImpl.copy (rhs : CopyOnWriteImpl) : CopyOnWriteImpl :=
  { res := rhs.res }

/-- `CopyOnWriteImpl::operator=`; `same` is `this == &rhs`. -/
def CopyOnWriteImpl.assign (self rhs : CopyOnWriteImpl) (same : Bool) : CopyOnWriteImpl :=
  if same then self else { res := rhs.res }

/-- `CopyOnWriteImpl::operator[]`: after the bounds check against `res->size` the
member `res` is replaced by `std::make_shared<Resource>(res->start)`, and the
pointer returned is `res->start + index` of the new resource. -/
def CopyOnWriteImpl.subscript (st : State) (self : CopyOnWriteImpl) (index : Nat) :
    Except Error (State × CopyOnWriteImpl × Ptr) :=
  match st.resource self.res with
  | .error e => .error e
  | .ok r =>
    if index < r.size then
      match st.view r.start with
      | .error e => .error e
      | .ok str =>
        match Resource.ofCStr st str with
        | .error e => .error e
        | .ok (st1, r1) =>
          let (st2, p) := st1.makeShared r1
          .ok (st2, { res := p }, .heap r1.start index)
    else .error .outOfRange

/-- The `std::memcpy(buf, src, n)` of `ShortStringOptImpl`: the cells of `buf`
after the copy.  The copy must fit the array and `src` must hold `n` bytes. -/
def memcpyBuf (buf src : List Byte) (n : Nat) : Except Error (List Byte) :=
  if n ≤ topThreshold ∧ n ≤ src.length then .ok (src.take n ++ buf.drop n)
  else .error .undefined

/-- `ShortStringOptImpl(const char* str)`. -/
def ShortStringOptImpl.ofCStr (str : List Byte) : Except Error ShortStringOptImpl :=
  match cStrlen str with
  | .error e => .error e
  | .ok size =>
    match memcpyBuf [] str size with
    | .error e => .error e
    | .ok buf => .ok { size := size, buf := buf }

/-- `ShortStringOptImpl(const ShortStringOptImpl& rhs)`. -/
def ShortStringOptImpl.copy (rhs : ShortStringOptImpl) : Except Error ShortStringOptImpl :=
  match memcpyBuf [] rhs.buf rhs.size with
  | .error e => .error e
  | .ok buf => .ok { size := rhs.size, buf := buf }

/-- `ShortStringOptImpl::operator=`; `same` is `this == &rhs`. -/
def ShortStringOptImpl.assign (self rhs : ShortStringOptImpl) (same : Bool) :
    Except Error ShortStringOptImpl :=
  if same then .ok self
  else
    match memcpyBuf self.buf rhs.buf rhs.size with
    | .error e => .error e
    | .ok buf => .ok { size := rhs.size, buf := buf }

/-- `ShortStringOptImpl::operator[]`; `self` is the address of the enclosing object. -/
def ShortStringOptImpl.subscript (this : ShortStringOptImpl) (self : Nat) (index : Nat) :
    Except Error Ptr :=
  if index < this.size then .ok (.inline self index)
  else .error .outOfRange

/-- Copy construction of the variant: the copy constructor of the active
alternative.  None of the alternatives declares a move constructor, so a move of
the variant runs this too. -/
def InnerImpls.copy (st : State) : InnerImpls → Except Error (State × InnerImpls)
  | .monostate => .ok (st, .monostate)
  | .eagerCopy e =>
    match e.copy st with
    | .error err => .error err
    | .ok (st1, e1) => .ok (st1, .eagerCopy e1)
  | .copyOnWrite c => .ok (st, .copyOnWrite c.copy)
  | .shortStringOpt s =>
    match s.copy with
    | .error err => .error err
    | .ok s1 => .ok (st, .shortStringOpt s1)

/-- Copy assignment of the variant when both sides hold the same alternative:
the `operator=` of that alternative. -/
def InnerImpls.assignSame (st : State) (same : Bool) :
    InnerImpls → InnerImpls → Except Error (State × InnerImpls)
  | .eagerCopy e, .eagerCopy r =>
    match EagerCopyImpl.assign st e r same with
    | .error err => .error err
    | .ok (st1, e1) => .ok (st1, .eagerCopy e1)
  | .copyOnWrite c, .copyOnWrite r => .ok (st, .copyOnWrite (c.assign r same))
  | .shortStringOpt s, .shortStringOpt r =>
    match s.assign r same with
    | .error err => .error err
    | .ok s1 => .ok (st, .shortStringOpt s1)
  | v, _ => .ok (st, v)

/-- `YHString() = default;`: a new object holding `std::monostate`. -/
def defaultConstruct (st : State) : State × Nat :=
  st.newObject .monostate

/-- `YHString(const char* str)`: the alternative chosen by `len` is built in a
temporary variant, which is then move-assigned into `v` (a copy construction of
the alternative, `v` holding `std::monostate` before). -/
def construct (st : State) (str : List Byte) : Except Error (State × Nat) :=
  match cStrlen str with
  | .error e => .error e
  | .ok len =>
    let tmp : Except Error (State × InnerImpls) :=
      if len ≤ topThreshold then
        match ShortStringOptImpl.ofCStr str with
        | .error e => .error e
        | .ok s => .ok (st, .shortStringOpt s)
      else if len ≤ bottomThreshold then
        match EagerCopyImpl.ofCStr st str with
        | .error e => .error e
        | .ok (st1, e) => .ok (st1, .eagerCopy e)
      else
        match CopyOnWriteImpl.ofCStr st str with
        | .error e => .error e
        | .ok (st1, c) => .ok (st1, .copyOnWrite c)
    match tmp with
    | .error e => .error e
    | .ok (st1, t) =>
      match t.copy st1 with
      | .error e => .error e
      | .ok (st2, v) => .ok (st2.newObject v)

/-- `YHString(const YHString& rhs) : v(rhs.v)`. -/
def copyConstruct (st : State) (rhs : Nat) : Except Error (State × Nat) :=
  match st.object rhs with
  | .error e => .error e
  | .ok r =>
    match r.copy st with
    | .error e => .error e
    | .ok (st1, v) => .ok (st1.newObject v)

/-- `YHString::operator=`: when the alternatives differ, `v = InnerImpls(rhs.v)`
copy-constructs a temporary and move-assigns it (a second copy construction);
otherwise `v = rhs.v` runs the `operator=` of the alternative. -/
def assign (st : State) (self rhs : Nat) : Except Error State :=
  match st.object self, st.object rhs with
  | .ok v, .ok r =>
    if v.index ≠ r.index then
      match r.copy st with
      | .error e => .error e
      | .ok (st1, tmp) =>
        match tmp.copy st1 with
        | .error e => .error e
        | .ok (st2, v1) => .ok { st2 with objects := st2.objects.set self v1 }
    else
      match InnerImpls.assignSame st (self == rhs) v r with
      | .error e => .error e
      | .ok (st1, v1) => .ok { st1 with objects := st1.objects.set self v1 }
  | .error e, _ => .error e
  | _, .error e => .error e

/-- The pointer computed by `YHString::operator[]` (the reference it returns is
the target of this pointer).  With `std::monostate` the macro returns an
uninitialised pointer. -/
def subscript (st : State) (self : Nat) (index : Nat) : Except Error (State × Ptr) :=
  match st.object self with
  | .error e => .error e
  | .ok .monostate => .error .undefined
  | .ok (.eagerCopy e) =>
    match e.subscript index with
    | .error err => .error err
    | .ok p => .ok (st, p)
  | .ok (.copyOnWrite c) =>
    match c.subscript st index with
    | .error err => .error err
    | .ok (st1, c1, p) =>
      .ok ({ st1 with objects := st1.objects.set self (.copyOnWrite c1) }, p)
  | .ok (.shortStringOpt s) =>
    match s.subscript self index with
    | .error err => .error err
    | .ok p => .ok (st, p)

/-- `YHString::length`.  With `std::monostate` the macro returns an uninitialised
`size_t`. -/
def length (st : State) (self : Nat) : Except Error Nat :=
  match st.object self with
  | .error e => .error e
  | .ok .monostate => .error .undefined
  | .ok (.eagerCopy e) => .ok e.size
  | .ok (.copyOnWrite c) =>
    match st.resource c.res with
    | .error e => .error e
    | .ok r => .ok r.size
  | .ok (.shortStringOpt s) => .ok s.size

/-- `YHString::data`.  With `std::monostate` the macro returns an uninitialised
pointer. -/
def data (st : State) (self : Nat) : Except Error Ptr :=
  match st.object self with
  | .error e => .error e
  | .ok .monostate => .error .undefined
  | .ok (.eagerCopy e) => .ok (.heap e.start 0)
  | .ok (.copyOnWrite c) =>
    match st.resource c.res with
    | .error e => .error e
    | .ok r => .ok (.heap r.start 0)
  | .ok (.shortStringOpt _) => .ok (.inline self 0)

/-- A read `p[i]`. -/
def load (st : State) (p : Ptr) (i : Nat) : Except Error Byte :=
  match p with
  | .heap b o =>
    match st.view b with
    | .error e => .error e
    | .ok mem =>
      match mem[o + i]? with
      | some c => .ok c
      | none => .error .undefined
  | .inline a o =>
    match st.object a with
    | .ok (.shortStringOpt s) =>
      match s.buf[o + i]? with
      | some c => .ok c
      | none => .error .undefined
    | _ => .error .undefined

/-- A write `*p = c`: it must land inside the block, or on an initialised cell
of `buf`. -/
def store (st : State) (p : Ptr) (c : Byte) : Except Error State :=
  match p with
  | .heap b o =>
    match st.heap[b]? with
    | some blk =>
      if o < blk.length then .ok { st with heap := st.heap.set b (blk.set o c) }
      else .error .undefined
    | none => .error .undefined
  | .inline a o =>
    match st.object a with
    | .ok (.shortStringOpt s) =>
      if o < s.buf.length then
        .ok { st with objects := st.objects.set a (.shortStringOpt { s with buf := s.buf.set o c }) }
      else .error .undefined
    | _ => .error .undefined

/-- The statement `v[index] = c`. -/
def write (st : State) (self : Nat) (index : Nat) (c : Byte) : Except Error State :=
  match subscript st self index with
  | .error e => .error e
  | .ok (st1, p) => store st1 p c

/-- `INT_MAX`: the counter of the loop in `operator==` is declared `auto i = 0`,
an `int` of 32 bits. -/
def intMax : Int := 2147483647

/-- The value an `int` holds after an arithmetic result `x`: reduced modulo
`2^32` into the range from `INT_MIN` to `INT_MAX`.  The C++ standard leaves the
overflow of `++i` undefined; this is what the unoptimised build computes. -/
def wrapInt (x : Int) : Int :=
  (x + 2147483648) % 4294967296 - 2147483648

/-- The loop `for (auto i = 0; i < llen; ++i) if (sx[i] != sy[i]) ...` of
`operator==`, at counter `i` with `n` rounds left until the counter reaches
`llen`.  The counter is an `int`, the length a `size_t`: the test `i < llen`
converts `i` to `size_t`, so a negative `i`, which `++i` yields at `INT_MAX`,
becomes a value of at least `2^64 - 2^31`; no string in memory is that long, the
test fails and the loop ends with `result` still true. -/
def equalsLoop (st : State) (sx sy : Ptr) : Int → Nat → Except Error Bool
  | _, 0 => .ok true
  | i, n + 1 =>
    if i < 0 then .ok true
    else
      match load st sx i.toNat, load st sy i.toNat with
      | .ok x, .ok y =>
        if x ≠ y then .ok false else equalsLoop st sx sy (wrapInt (i + 1)) n
      | .error e, _ => .error e
      | _, .error e => .error e

/-- The function `bool operator==(const YHString& lhs, const YHString& rhs)`. -/
def equals (st : State) (lhs rhs : Nat) : Except Error Bool :=
  if lhs ≠ rhs then
    match length st lhs, length st rhs with
    | .ok llen, .ok rlen =>
      if llen = rlen then
        match data st lhs, data st rhs with
        | .ok sx, .ok sy => equalsLoop st sx sy 0 llen
        | .error e, _ => .error e
        | _, .error e => .error e
      else .ok false
    | .error e, _ => .error e
    | _, .error e => .error e
  else .ok true

/-- The function `bool isSharing(const YHString& lhs, const YHString& rhs)`. -/
def isSharing (st : State) (lhs rhs : Nat) : Except Error Bool :=
  match st.object lhs, st.object rhs with
  | .ok x, .ok y =>
    if x.index = y.index then
      match x, y with
      | .copyOnWrite cx, .copyOnWrite cy => .ok (decide (cx.res = cy.res))
      | _, _ => .ok false
    else .ok false
  | .error e, _ => .error e
  | _, .error e => .error e

/-- The names the specification gives to the alternatives of the variant. -/
inductive Kind where
  | empty
  | inline
  | exclusive
  | shared
  deriving DecidableEq, Repr

/-- The name of the active alternative. -/
def InnerImpls.kind : InnerImpls → Kind
  | .monostate => .empty
  | .eagerCopy _ => .exclusive
  | .copyOnWrite _ => .shared
  | .shortStringOpt _ => .inline

/-- Byte `i` of `rawData()`: the read `data()[i]`. -/
def byteAt (st : State) (self : Nat) (i : Nat) : Except Error Byte :=
  match data st self with
  | .error e => .error e
  | .ok p => load st p i

/-- The block at `start` exists and holds exactly `size` bytes. -/
def State.HasBlock (st : State) (start size : Nat) : Prop :=
  (st.heap[start]?).map List.length = some size

/-- What the members of a resource promise: its block holds `size` bytes and
`capacity` equals `size`. -/
def Resource.Valid (st : State) (r : Resource) : Prop :=
  st.HasBlock r.start r.size ∧ r.capacity = r.size

/-- What the members of an alternative promise: an `EagerCopyImpl` owns a block
of `size` bytes, a `CopyOnWriteImpl` points to a resource, the `size` of a
`ShortStringOptImpl` counts initialised cells of an array of `topThreshold` cells. -/
def InnerImpls.Valid (st : State) : InnerImpls → Prop
  | .monostate => True
  | .eagerCopy e => st.HasBlock e.start e.size ∧ e.capacity = e.size
  | .copyOnWrite c => c.res < st.resources.length
  | .shortStringOpt s => s.size ≤ s.buf.length ∧ s.buf.length ≤ topThreshold

/-- State `st1` differs from `st` by new blocks and new resources only (and
possibly in its objects): nothing that existed was changed or released. -/
structure State.Ext (st st1 : State) : Prop where
  slack : st1.slack = st.slack
  heap : ∃ ext, st1.heap = st.heap ++ ext
  resources : ∃ ext, st1.resources = st.resources ++ ext

/-- The representation invariant of a state. -/
structure State.WF (st : State) : Prop where
  objects : ∀ v ∈ st.objects, v.Valid st
  resources : ∀ r ∈ st.resources, r.Valid st

/-- The states a program can bring about through the public interface of
`YHString`: the constructors, `operator=`, `operator[]` alone and `v[i] = c`. -/
inductive Reachable : State → Prop where
  | init (slack : Nat → List Byte) : Reachable (State.init slack)
  | defaultConstruct {st : State} : Reachable st → Reachable (defaultConstruct st).1
  | construct {st st1 : State} {str : List Byte} {a : Nat} :
      Reachable st → construct st str = .ok (st1, a) → Reachable st1
  | copyConstruct {st st1 : State} {rhs a : Nat} :
      Reachable st → copyConstruct st rhs = .ok (st1, a) → Reachable st1
  | assign {st st1 : State} {self rhs : Nat} :
      Reachable st → assign st self rhs = .ok st1 → Reachable st1
  | subscript {st st1 : State} {self i : Nat} {p : Ptr} :
      Reachable st → subscript st self i = .ok (st1, p) → Reachable st1
  | write {st st1 : State} {self i : Nat} {c : Byte} :
      Reachable st → write st self i c = .ok st1 → Reachable st1

/-- A state for examples: one object, built from the two bytes `hi`. -/
def demoInline : State :=
  { slack := fun _ => [0], heap := [], resources := [],
    objects := [.shortStringOpt { size := 2, buf := [104, 105] }] }

/-- The bytes of a long example string: 256 times the letter `a`. -/
def demoLong : List Byte := List.replicate 256 97

/-- A state for examples: `A` (object 0) built from `demoLong`, so Shared. -/
def demoShared : State :=
  { slack := fun _ => [0], heap := [demoLong],
    resources := [{ size := 256, capacity := 256, start := 0 }],
    objects := [.copyOnWrite { res := 0 }] }

/-- A state for examples: `A` (object 0) built from `demoLong`, and `B` (object 1)
copy-constructed from `A`. -/
def demoPair : State :=
  { slack := fun _ => [0], heap := [demoLong],
    resources := [{ size := 256, capacity := 256, start := 0 }],
    objects := [.copyOnWrite { res := 0 }, .copyOnWrite { res := 0 }] }

/-- The state `demoPair` after the access `A[0]`. -/
def demoPairDetached : State :=
  { slack := fun _ => [0], heap := [demoLong, demoLong],
    resources := [{ size := 256, capacity := 256, start := 0 },
      { size := 256, capacity := 256, start := 1 }],
    objects := [.copyOnWrite { res := 1 }, .copyOnWrite { res := 0 }] }

/-- The state `demoPair` after the write `A[0] = 'x'`. -/
def demoPairWritten : State :=
  { slack := fun _ => [0], heap := [demoLong, demoLong.set 0 120],
    resources := [{ size := 256, capacity := 256, start := 0 },
      { size := 256, capacity := 256, start := 1 }],
    objects := [.copyOnWrite { res := 1 }, .copyOnWrite { res := 0 }] }

/-- A state for examples, after the first steps of `main`: `strC` (object 0) is
Inline, `strD` (object 1) is Shared and `strE` (object 2) is a copy of `strD`. -/
def demoMixed : State :=
  { slack := fun _ => [0], heap := [demoLong],
    resources := [{ size := 256, capacity := 256, start := 0 }],
    objects := [.shortStringOpt { size := 2, buf := [104, 105] }, .copyOnWrite { res := 0 },
      .copyOnWrite { res := 0 }] }

/-- The bytes of `"Hello, there are still many things to do."`, the 41 bytes
`main` builds `strG` from. -/
def demoG : List Byte :=
  [72, 101, 108, 108, 111, 44, 32, 116, 104, 101, 114, 101, 32, 97, 114, 101, 32, 115, 116, 105,
    108, 108, 32, 109, 97, 110, 121, 32, 116, 104, 105, 110, 103, 115, 32, 116, 111, 32, 100,
    111, 46]

/-- A state for examples: `strD` (object 0) is Shared, built from `demoLong`, and
`strG` (object 1) is Exclusive, built from `demoG`. -/
def demoCompare : State :=
  { slack := fun _ => [0], heap := [demoLong, demoG, demoG],
    resources := [{ size := 256, capacity := 256, start := 0 }],
    objects := [.copyOnWrite { res := 0 },
      .eagerCopy { size := 41, capacity := 41, start := 2 }] }

/-- `CopyOnWriteImpl::operator[]` once more, now together with the state and the
member `res` the call leaves behind in every case, also when it throws: the
bounds check is the first statement, the replacement of `res` happens only in
its true branch. -/
def CopyOnWriteImpl.subscriptRun (st : State) (self : CopyOnWriteImpl) (index : Nat) :
    State × CopyOnWriteImpl × Except Error Ptr :=
  match st.resource self.res with
  | .error e => (st, self, .error e)
  | .ok r =>
    if index < r.size then
      match st.view r.start with
      | .error e => (st, self, .error e)
      | .ok str =>
        match Resource.ofCStr st str with
        | .error e => (st, self, .error e)
        | .ok (st1, r1) =>
          let (st2, p) := st1.makeShared r1
          (st2, { res := p }, .ok (.heap r1.start index))
    else (st, self, .error .outOfRange)

/-- `YHString::operator[]` once more, now together with the state the call leaves
behind in every case, also when the `operator[]` of the alternative throws. -/
def subscriptRun (st : State) (self : Nat) (index : Nat) : State × Except Error Ptr :=
  match st.object self with
  | .error e => (st, .error e)
  | .ok .monostate => (st, .error .undefined)
  | .ok (.eagerCopy e) => (st, e.subscript index)
  | .ok (.copyOnWrite c) =>
    match c.subscriptRun st index with
    | (st1, c1, r) => ({ st1 with objects := st1.objects.set self (.copyOnWrite c1) }, r)
  | .ok (.shortStringOpt s) => (st, s.subscript self index)

/-- The alternative `v` holds the bytes `bs`: they are the block of an
`EagerCopyImpl`, the block of the resource of a `CopyOnWriteImpl`, or the first
`size` cells of the `buf` of a `ShortStringOptImpl`. -/
def InnerImpls.Holds (st : State) : InnerImpls → List Byte → Prop
  | .monostate, _ => False
  | .eagerCopy e, bs => st.heap[e.start]? = some bs ∧ bs.length = e.size ∧ e.capacity = e.size
  | .copyOnWrite c, bs =>
    ∃ r, st.resources[c.res]? = some r ∧ st.heap[r.start]? = some bs ∧ bs.length = r.size
  | .shortStringOpt s, bs =>
    bs = s.buf.take s.size ∧ s.size ≤ s.buf.length ∧ s.size ≤ topThreshold

/-- A state for examples, as in `main` before `strC = strF`: `strC`, `strD` and
`strE` (objects 0, 1, 2) share one resource, `strF` (object 3) was built on its
own from 256 bytes `b`. -/
def demoRebind : State :=
  { slack := fun _ => [0], heap := [demoLong, List.replicate 256 98],
    resources := [{ size := 256, capacity := 256, start := 0 },
      { size := 256, capacity := 256, start := 1 }],
    objects := [.copyOnWrite { res := 0 }, .copyOnWrite { res := 0 }, .copyOnWrite { res := 0 },
      .copyOnWrite { res := 1 }] }

/-- `constexpr int topThreshold = 23;` of `YHString.cc`. -/
def ccTopThreshold : Nat := 23

/-- `const static size_t bufSize = 3 * sizeof(nullptr);` of `YHString.cc`, with
pointers of 8 bytes. -/
def ccBufSize : Nat := 3 * 8

/-- The `std::memcpy(buf, src, n)` of `ShortStringOptImpl` for an array `buf` of
`cap` cells.  `YHString.cc` differs from the header in the size of this array
and in `topThreshold`; its `ShortStringOptImpl` runs the same statements. -/
def memcpyBufCap (cap : Nat) (buf src : List Byte) (n : Nat) : Except Error (List Byte) :=
  if n ≤ cap ∧ n ≤ src.length then .ok (src.take n ++ buf.drop n)
  else .error .undefined

/-- `ShortStringOptImpl(const char* str)` with an array of `cap` cells. -/
def ShortStringOptImpl.ofCStrCap (cap : Nat) (str : List Byte) :
    Except Error ShortStringOptImpl :=
  match cStrlen str with
  | .error e => .error e
  | .ok size =>
    match memcpyBufCap cap [] str size with
    | .error e => .error e
    | .ok buf => .ok { size := size, buf := buf }

/-- `ShortStringOptImpl(const ShortStringOptImpl& rhs)` with an array of `cap` cells. -/
def ShortStringOptImpl.copyCap (cap : Nat) (rhs : ShortStringOptImpl) :
    Except Error ShortStringOptImpl :=
  match memcpyBufCap cap [] rhs.buf rhs.size with
  | .error e => .error e
  | .ok buf => .ok { size := rhs.size, buf := buf }

/-- `ShortStringOptImpl::operator=` with an array of `cap` cells; `same` is
`this == &rhs`. -/
def ShortStringOptImpl.assignCap (cap : Nat) (self rhs : ShortStringOptImpl) (same : Bool) :
    Except Error ShortStringOptImpl :=
  if same then .ok self
  else
    match memcpyBufCap cap self.buf rhs.buf rhs.size with
    | .error e => .error e
    | .ok buf => .ok { size := rhs.size, buf := buf }

/-- The first branch of `YHString(const char* str)` in `YHString.cc`: when
`len <= topThreshold` a `ShortStringOptImpl` is built from `str` in a temporary
and copied into `v`; `none` stands for the other two branches. -/
def ccConstructInline (str : List Byte) : Except Error (Option ShortStringOptImpl) :=
  match cStrlen str with
  | .error e => .error e
  | .ok len =>
    if len ≤ ccTopThreshold then
      match ShortStringOptImpl.ofCStrCap ccBufSize str with
      | .error e => .error e
      | .ok tmp =>
        match tmp.copyCap ccBufSize with
        | .error e => .error e
        | .ok s => .ok (some s)
    else .ok none

/-- The invariant of a `ShortStringOptImpl` with an array of `cap` cells:
`size` counts initialised cells, and these lie inside the array. -/
def ShortStringOptImpl.Fits (cap : Nat) (s : ShortStringOptImpl) : Prop :=
  s.size ≤ s.buf.length ∧ s.buf.length ≤ cap

/-- No two different objects hold an `EagerCopyImpl` with the same block. -/
def State.Unaliased (st : State) : Prop :=
  ∀ (a b : Nat) (ea eb : EagerCopyImpl), a ≠ b → st.objects[a]? = some (.eagerCopy ea) →
    st.objects[b]? = some (.eagerCopy eb) → ea.start ≠ eb.start

/-- Object `a` reads the same in `st1` as in `st`: same alternative, same
length, same byte at every position. -/
def Unchanged (st st1 : State) (a : Nat) : Prop :=
  st1.object a = st.object a ∧ length st1 a = length st a ∧
    ∀ j, byteAt st1 a j = byteAt st a j

/-- Objects `a` and `b` are independent in `st`: a write `b[i] = c` that returns
leaves `a` unchanged, and a write `a[i] = c` that returns leaves `b` unchanged. -/
def Independent (st : State) (a b : Nat) : Prop :=
  ∀ (i : Nat) (c : Byte) (st1 : State),
    (write st b i c = .ok st1 → Unchanged st st1 a) ∧
    (write st a i c = .ok st1 → Unchanged st st1 b)

/-- The bytes of a string longer than `INT_MAX`: 2147483656 times the letter `a`. -/
def demoHugeA : List Byte := List.replicate 2147483656 97

/-- The bytes of `demoHugeA` with the letter `b` at position 2147483655. -/
def demoHugeB : List Byte := demoHugeA.set 2147483655 98

theorem strlen_append (s t : List Byte) (h : ∀ b ∈ s, b ≠ 0) :
    strlen (s ++ t) = (strlen t).map (· + s.length) := by
  induction s with
  | nil => simp
  | cons b bs ih =>
    have hb : b ≠ 0 := h b (List.mem_cons_self _ _)
    have ih1 := ih (fun x hx => h x (List.mem_cons_of_mem _ hx))
    simp [strlen, hb, ih1, Option.map_map]

theorem strlen_cstr (s rest : List Byte) (h : ∀ b ∈ s, b ≠ 0) :
    strlen (s ++ 0 :: rest) = some s.length := by
  rw [strlen_append s _ h]; simp [strlen]

theorem cStrlen_cstr (s rest : List Byte) (h : ∀ b ∈ s, b ≠ 0) :
    cStrlen (s ++ 0 :: rest) = .ok s.length := by
  simp [cStrlen, strlen_cstr s rest h]

theorem construct_inline (st : State) (s rest : List Byte) (h : ∀ b ∈ s, b ≠ 0)
    (hl : s.length ≤ topThreshold) :
    construct st (s ++ 0 :: rest) =
      .ok ({ st with objects := st.objects ++ [.shortStringOpt { size := s.length, buf := s }] },
        st.objects.length) := by
  simp [construct, cStrlen_cstr s rest h, hl, ShortStringOptImpl.ofCStr, memcpyBuf,
    InnerImpls.copy, ShortStringOptImpl.copy, State.newObject]

theorem construct_exclusive (st : State) (s rest : List Byte) (h : ∀ b ∈ s, b ≠ 0)
    (hl : topThreshold < s.length) (hu : s.length ≤ bottomThreshold) :
    construct st (s ++ 0 :: rest) =
      .ok ({ st with
              heap := st.heap ++ [s] ++ [s]
              objects := st.objects ++
                [.eagerCopy { size := s.length, capacity := s.length, start := st.heap.length + 1 }] },
        st.objects.length) := by
  have hl' : ¬ s.length ≤ topThreshold := by omega
  simp [construct, cStrlen_cstr s rest h, hl', hu, EagerCopyImpl.ofCStr, State.mallocMemcpy,
    InnerImpls.copy, EagerCopyImpl.copy, State.view, State.newObject]

theorem construct_shared (st : State) (s rest : List Byte) (h : ∀ b ∈ s, b ≠ 0)
    (hl : bottomThreshold < s.length) :
    construct st (s ++ 0 :: rest) =
      .ok ({ st with
              heap := st.heap ++ [s]
              resources := st.resources ++
                [{ size := s.length, capacity := s.length, start := st.heap.length }]
              objects := st.objects ++ [.copyOnWrite { res := st.resources.length }] },
        st.objects.length) := by
  have hl' : ¬ s.length ≤ topThreshold := by unfold topThreshold; unfold bottomThreshold at hl; omega
  have hu' : ¬ s.length ≤ bottomThreshold := by omega
  simp [construct, cStrlen_cstr s rest h, hl', hu', CopyOnWriteImpl.ofCStr, Resource.ofCStr,
    State.mallocMemcpy, InnerImpls.copy, CopyOnWriteImpl.copy, State.makeShared, State.newObject]
theorem strlen_lt {m : List Byte} {n : Nat} (h : strlen m = some n) : n < m.length := by
  induction m generalizing n with
  | nil => simp [strlen] at h
  | cons b bs ih =>
    by_cases hb : b = 0
    · simp [strlen, hb] at h; subst h; simp
    · simp [strlen, hb] at h
      obtain ⟨k, hk, rfl⟩ := h
      have := ih hk
      simp; omega

theorem strlen_of_mem {m : List Byte} (h : (0 : Byte) ∈ m) : ∃ n, strlen m = some n := by
  induction m with
  | nil => simp at h
  | cons b bs ih =>
    by_cases hb : b = 0
    · exact ⟨0, by simp [strlen, hb]⟩
    · have h1 : (0 : Byte) ∈ bs := by
        rcases List.mem_cons.1 h with h2 | h2
        · exact absurd h2.symm hb
        · exact h2
      obtain ⟨k, hk⟩ := ih h1
      exact ⟨k + 1, by simp [strlen, hb, hk]⟩

theorem cStrlen_ok {m : List Byte} {n : Nat} : cStrlen m = .ok n ↔ strlen m = some n := by
  unfold cStrlen; cases strlen m <;> simp

theorem cStrlen_error {m : List Byte} {e : Error} (h : cStrlen m = .error e) :
    e = .undefined := by
  unfold cStrlen at h; cases hs : strlen m <;> simp [hs] at h; exact h.symm

theorem view_ok {st : State} {p : Nat} {m : List Byte} :
    st.view p = .ok m ↔ ∃ blk, st.heap[p]? = some blk ∧ m = blk ++ st.slack p := by
  unfold State.view; cases st.heap[p]? <;> simp [eq_comm]

theorem view_error {st : State} {p : Nat} {e : Error} (h : st.view p = .error e) :
    e = .undefined := by
  unfold State.view at h; cases hs : st.heap[p]? <;> simp [hs] at h; exact h.symm

theorem mallocMemcpy_ok {st st1 : State} {src : List Byte} {n p : Nat} :
    st.mallocMemcpy src n = .ok (st1, p) ↔
      n ≤ src.length ∧ st1 = { st with heap := st.heap ++ [src.take n] } ∧ p = st.heap.length := by
  unfold State.mallocMemcpy
  by_cases h : n ≤ src.length <;> simp [h, eq_comm]

theorem mallocMemcpy_error {st : State} {src : List Byte} {n : Nat} {e : Error}
    (h : st.mallocMemcpy src n = .error e) : e = .undefined := by
  unfold State.mallocMemcpy at h
  by_cases hn : n ≤ src.length <;> simp [hn] at h; exact h.symm

theorem object_ok {st : State} {a : Nat} {v : InnerImpls} :
    st.object a = .ok v ↔ st.objects[a]? = some v := by
  unfold State.object; cases st.objects[a]? <;> simp

theorem resource_ok {st : State} {p : Nat} {r : Resource} :
    st.resource p = .ok r ↔ st.resources[p]? = some r := by
  unfold State.resource; cases st.resources[p]? <;> simp

theorem resource_error {st : State} {p : Nat} {e : Error} (h : st.resource p = .error e) :
    e = .undefined := by
  unfold State.resource at h; cases hs : st.resources[p]? <;> simp [hs] at h; exact h.symm

theorem Resource.ofCStr_ok {st st1 : State} {str : List Byte} {r : Resource} :
    Resource.ofCStr st str = .ok (st1, r) ↔
      ∃ n, strlen str = some n ∧ st1 = { st with heap := st.heap ++ [str.take n] } ∧
        r = { size := n, capacity := n, start := st.heap.length } := by
  unfold Resource.ofCStr
  cases hs : strlen str with
  | none => simp [cStrlen, hs]
  | some n =>
    have hn : n ≤ str.length := Nat.le_of_lt (strlen_lt hs)
    simp [cStrlen, hs, State.mallocMemcpy, hn, eq_comm]

theorem Resource.ofCStr_error {st : State} {str : List Byte} {e : Error}
    (h : Resource.ofCStr st str = .error e) : e = .undefined := by
  unfold Resource.ofCStr at h
  cases hs : strlen str with
  | none => simp [cStrlen, hs] at h; exact h.symm
  | some n =>
    have hn : n ≤ str.length := Nat.le_of_lt (strlen_lt hs)
    simp [cStrlen, hs, State.mallocMemcpy, hn] at h

theorem EagerCopyImpl.copy_ok {st st1 : State} {e e1 : EagerCopyImpl} :
    e.copy st = .ok (st1, e1) ↔
      ∃ blk, st.heap[e.start]? = some blk ∧ e.capacity ≤ (blk ++ st.slack e.start).length ∧
        st1 = { st with heap := st.heap ++ [(blk ++ st.slack e.start).take e.capacity] } ∧
        e1 = { size := e.size, capacity := e.capacity, start := st.heap.length } := by
  unfold EagerCopyImpl.copy State.view
  cases hb : st.heap[e.start]? with
  | none => simp
  | some blk =>
    by_cases hn : e.capacity ≤ blk.length + (st.slack e.start).length
    · simp [State.mallocMemcpy, hn, eq_comm]
    · simp [State.mallocMemcpy, hn]
theorem State.Ext.refl (st : State) : st.Ext st :=
  ⟨rfl, ⟨[], by simp⟩, ⟨[], by simp⟩⟩

theorem State.Ext.trans {st st1 st2 : State} (h1 : st.Ext st1) (h2 : st1.Ext st2) :
    st.Ext st2 := by
  obtain ⟨s1, ⟨x1, hx1⟩, ⟨r1, hr1⟩⟩ := h1
  obtain ⟨s2, ⟨x2, hx2⟩, ⟨r2, hr2⟩⟩ := h2
  exact ⟨s2.trans s1, ⟨x1 ++ x2, by rw [hx2, hx1, List.append_assoc]⟩,
    ⟨r1 ++ r2, by rw [hr2, hr1, List.append_assoc]⟩⟩

theorem State.Ext.heap_get {st st1 : State} (h : st.Ext st1) {p : Nat} {blk : List Byte}
    (hp : st.heap[p]? = some blk) : st1.heap[p]? = some blk := by
  obtain ⟨ext, hx⟩ := h.heap
  have hlt : p < st.heap.length := (List.getElem?_eq_some_iff.1 hp).1
  rw [hx, List.getElem?_append_left hlt]; exact hp

theorem State.Ext.resource_get {st st1 : State} (h : st.Ext st1) {p : Nat} {r : Resource}
    (hp : st.resources[p]? = some r) : st1.resources[p]? = some r := by
  obtain ⟨ext, hx⟩ := h.resources
  have hlt : p < st.resources.length := (List.getElem?_eq_some_iff.1 hp).1
  rw [hx, List.getElem?_append_left hlt]; exact hp

theorem State.Ext.resources_length {st st1 : State} (h : st.Ext st1) :
    st.resources.length ≤ st1.resources.length := by
  obtain ⟨ext, hx⟩ := h.resources
  rw [hx, List.length_append]; omega

theorem State.Ext.heap_length {st st1 : State} (h : st.Ext st1) :
    st.heap.length ≤ st1.heap.length := by
  obtain ⟨ext, hx⟩ := h.heap
  rw [hx, List.length_append]; omega

theorem State.Ext.hasBlock {st st1 : State} (h : st.Ext st1) {p n : Nat}
    (hp : st.HasBlock p n) : st1.HasBlock p n := by
  unfold State.HasBlock at hp ⊢
  cases hb : st.heap[p]? with
  | none => simp [hb] at hp
  | some blk => rw [h.heap_get hb]; rw [hb] at hp; exact hp

theorem InnerImpls.Valid.ext {st st1 : State} (h : st.Ext st1) {v : InnerImpls}
    (hv : v.Valid st) : v.Valid st1 := by
  cases v with
  | monostate => trivial
  | eagerCopy e => exact ⟨h.hasBlock hv.1, hv.2⟩
  | copyOnWrite c => exact Nat.lt_of_lt_of_le hv h.resources_length
  | shortStringOpt s => exact hv

theorem Resource.Valid.extend {st st1 : State} (h : st.Ext st1) {r : Resource}
    (hv : r.Valid st) : r.Valid st1 :=
  ⟨h.hasBlock hv.1, hv.2⟩

theorem State.Ext.view {st st1 : State} (h : st.Ext st1) {p : Nat} {blk : List Byte}
    (hp : st.heap[p]? = some blk) : st1.view p = st.view p := by
  unfold State.view; rw [h.heap_get hp, hp, h.slack]

theorem hasBlock_iff {st : State} {p n : Nat} :
    st.HasBlock p n ↔ ∃ blk, st.heap[p]? = some blk ∧ blk.length = n := by
  unfold State.HasBlock
  cases st.heap[p]? <;> simp

theorem InnerImpls.copy_spec {st st1 : State} {v v1 : InnerImpls}
    (h : v.copy st = .ok (st1, v1)) :
    st.Ext st1 ∧ st1.objects = st.objects ∧ st1.resources = st.resources ∧
      v1.index = v.index ∧ (v.Valid st → v1.Valid st1) := by
  cases v with
  | monostate =>
    simp [InnerImpls.copy] at h
    obtain ⟨rfl, rfl⟩ := h
    exact ⟨State.Ext.refl _, rfl, rfl, rfl, id⟩
  | copyOnWrite c =>
    simp [InnerImpls.copy, CopyOnWriteImpl.copy] at h
    obtain ⟨rfl, rfl⟩ := h
    exact ⟨State.Ext.refl _, rfl, rfl, rfl, id⟩
  | shortStringOpt s =>
    simp only [InnerImpls.copy, ShortStringOptImpl.copy, memcpyBuf] at h
    by_cases hc : s.size ≤ topThreshold ∧ s.size ≤ s.buf.length
    · simp [hc] at h
      obtain ⟨rfl, rfl⟩ := h
      refine ⟨State.Ext.refl _, rfl, rfl, rfl, fun _ => ?_⟩
      simp [InnerImpls.Valid, hc.1, hc.2]
    · simp [hc] at h
  | eagerCopy e =>
    simp only [InnerImpls.copy] at h
    cases hc : e.copy st with
    | error err => simp [hc] at h
    | ok res =>
      obtain ⟨st2, e1⟩ := res
      simp [hc] at h
      obtain ⟨rfl, rfl⟩ := h
      obtain ⟨blk, hb, hcap, rfl, rfl⟩ := EagerCopyImpl.copy_ok.1 hc
      have hx : st.Ext { st with heap := st.heap ++ [(blk ++ st.slack e.start).take e.capacity] } :=
        ⟨rfl, ⟨_, rfl⟩, ⟨[], by simp⟩⟩
      refine ⟨hx, rfl, rfl, rfl, fun hv => ?_⟩
      refine ⟨?_, hv.2⟩
      rw [hasBlock_iff]
      refine ⟨_, List.getElem?_concat_length _ _, ?_⟩
      rw [List.length_take, Nat.min_eq_left hcap]
      exact hv.2
theorem construct_of_strlen (st : State) {str : List Byte} {n : Nat} (hs : strlen str = some n) :
    construct st str = .ok
      (if n ≤ topThreshold then
        ({ st with objects := st.objects ++ [.shortStringOpt { size := n, buf := str.take n }] },
          st.objects.length)
      else if n ≤ bottomThreshold then
        ({ st with
            heap := st.heap ++ [str.take n, str.take n]
            objects := st.objects ++
              [.eagerCopy { size := n, capacity := n, start := st.heap.length + 1 }] },
          st.objects.length)
      else
        ({ st with
            heap := st.heap ++ [str.take n]
            resources := st.resources ++ [{ size := n, capacity := n, start := st.heap.length }]
            objects := st.objects ++ [.copyOnWrite { res := st.resources.length }] },
          st.objects.length)) := by
  have hn : n ≤ str.length := Nat.le_of_lt (strlen_lt hs)
  by_cases h1 : n ≤ topThreshold
  · simp [construct, cStrlen, hs, h1, hn, ShortStringOptImpl.ofCStr, memcpyBuf,
      InnerImpls.copy, ShortStringOptImpl.copy, State.newObject, List.take_take]
  · by_cases h2 : n ≤ bottomThreshold
    · simp [construct, cStrlen, hs, h1, h2, hn, EagerCopyImpl.ofCStr, State.mallocMemcpy,
        InnerImpls.copy, EagerCopyImpl.copy, State.view, State.newObject, List.take_take,
        List.take_append_of_le_length]
    · simp [construct, cStrlen, hs, h1, h2, hn, CopyOnWriteImpl.ofCStr, Resource.ofCStr,
        State.mallocMemcpy, InnerImpls.copy, CopyOnWriteImpl.copy, State.makeShared,
        State.newObject]

theorem construct_ok_strlen {st st1 : State} {str : List Byte} {a : Nat}
    (h : construct st str = .ok (st1, a)) : ∃ n, strlen str = some n := by
  cases hs : strlen str with
  | none => simp [construct, cStrlen, hs] at h
  | some n => exact ⟨n, rfl⟩
theorem State.WF.of_ext {st st1 : State} (hwf : st.WF) (hx : st.Ext st1)
    (ho : ∀ v ∈ st1.objects, v ∈ st.objects ∨ v.Valid st1)
    (hr : ∀ r ∈ st1.resources, r ∈ st.resources ∨ r.Valid st1) : st1.WF := by
  constructor
  · intro v hv
    rcases ho v hv with h | h
    · exact (hwf.objects v h).ext hx
    · exact h
  · intro r hr1
    rcases hr r hr1 with h | h
    · exact (hwf.resources r h).extend hx
    · exact h

theorem State.WF.init (slack : Nat → List Byte) : (State.init slack).WF := by
  constructor <;> simp [State.init]

theorem construct_ext {st st1 : State} {str : List Byte} {a : Nat}
    (h : construct st str = .ok (st1, a)) : st.Ext st1 := by
  obtain ⟨n, hs⟩ := construct_ok_strlen h
  rw [construct_of_strlen st hs] at h
  simp only [Except.ok.injEq] at h
  split at h
  · simp only [Prod.mk.injEq] at h; obtain ⟨rfl, -⟩ := h
    exact ⟨rfl, ⟨[], by simp⟩, ⟨[], by simp⟩⟩
  · split at h
    · simp only [Prod.mk.injEq] at h; obtain ⟨rfl, -⟩ := h
      exact ⟨rfl, ⟨_, rfl⟩, ⟨[], by simp⟩⟩
    · simp only [Prod.mk.injEq] at h; obtain ⟨rfl, -⟩ := h
      exact ⟨rfl, ⟨_, rfl⟩, ⟨_, rfl⟩⟩

theorem construct_objects {st st1 : State} {str : List Byte} {a : Nat}
    (h : construct st str = .ok (st1, a)) :
    a = st.objects.length ∧ ∃ v, st1.objects = st.objects ++ [v] := by
  obtain ⟨n, hs⟩ := construct_ok_strlen h
  rw [construct_of_strlen st hs] at h
  simp only [Except.ok.injEq] at h
  split at h
  · simp only [Prod.mk.injEq] at h; obtain ⟨rfl, rfl⟩ := h
    exact ⟨rfl, _, rfl⟩
  · split at h
    · simp only [Prod.mk.injEq] at h; obtain ⟨rfl, rfl⟩ := h
      exact ⟨rfl, _, rfl⟩
    · simp only [Prod.mk.injEq] at h; obtain ⟨rfl, rfl⟩ := h
      exact ⟨rfl, _, rfl⟩

theorem construct_wf {st st1 : State} {str : List Byte} {a : Nat} (hwf : st.WF)
    (h : construct st str = .ok (st1, a)) : st1.WF := by
  have hx := construct_ext h
  obtain ⟨n, hs⟩ := construct_ok_strlen h
  have hn : n ≤ str.length := Nat.le_of_lt (strlen_lt hs)
  rw [construct_of_strlen st hs] at h
  simp only [Except.ok.injEq] at h
  refine hwf.of_ext hx ?_ ?_
  · split at h
    · rename_i h1
      simp only [Prod.mk.injEq] at h; obtain ⟨rfl, -⟩ := h
      intro v hv
      rcases List.mem_append.1 hv with hv | hv
      · exact Or.inl hv
      · right
        rw [List.mem_singleton.1 hv]
        simp [InnerImpls.Valid, hn, h1]
    · split at h
      · simp only [Prod.mk.injEq] at h; obtain ⟨rfl, -⟩ := h
        intro v hv
        rcases List.mem_append.1 hv with hv | hv
        · exact Or.inl hv
        · right
          rw [List.mem_singleton.1 hv]
          refine ⟨?_, rfl⟩
          rw [hasBlock_iff]
          refine ⟨str.take n, ?_, by simp [hn]⟩
          show (st.heap ++ [str.take n, str.take n])[st.heap.length + 1]? = _
          rw [List.getElem?_append_right (by omega), Nat.add_sub_cancel_left]; rfl
      · simp only [Prod.mk.injEq] at h; obtain ⟨rfl, -⟩ := h
        intro v hv
        rcases List.mem_append.1 hv with hv | hv
        · exact Or.inl hv
        · right
          rw [List.mem_singleton.1 hv]
          simp [InnerImpls.Valid]
  · split at h
    · simp only [Prod.mk.injEq] at h; obtain ⟨rfl, -⟩ := h
      exact fun r hr => Or.inl hr
    · split at h
      · simp only [Prod.mk.injEq] at h; obtain ⟨rfl, -⟩ := h
        exact fun r hr => Or.inl hr
      · simp only [Prod.mk.injEq] at h; obtain ⟨rfl, -⟩ := h
        intro r hr
        rcases List.mem_append.1 hr with hr | hr
        · exact Or.inl hr
        · right
          rw [List.mem_singleton.1 hr]
          refine ⟨?_, rfl⟩
          rw [hasBlock_iff]
          exact ⟨str.take n, List.getElem?_concat_length _ _, by simp [hn]⟩

theorem mem_of_getElem? {α : Type} {l : List α} {i : Nat} {x : α} (h : l[i]? = some x) :
    x ∈ l := by
  obtain ⟨hi, rfl⟩ := List.getElem?_eq_some_iff.1 h
  exact List.getElem_mem hi

theorem copyConstruct_spec {st st1 : State} {rhs a : Nat}
    (h : copyConstruct st rhs = .ok (st1, a)) :
    ∃ r v, st.objects[rhs]? = some r ∧ a = st.objects.length ∧ st.Ext st1 ∧
      st1.objects = st.objects ++ [v] ∧ st1.resources = st.resources ∧
      v.index = r.index ∧ (r.Valid st → v.Valid st1) ∧
      ∃ st2, r.copy st = .ok (st2, v) ∧ st1 = { st2 with objects := st.objects ++ [v] } := by
  unfold copyConstruct at h
  cases ho : st.object rhs with
  | error e => simp [ho] at h
  | ok r =>
    cases hc : r.copy st with
    | error e => simp [ho, hc] at h
    | ok res =>
      obtain ⟨st2, v⟩ := res
      simp [ho, hc, State.newObject] at h
      obtain ⟨rfl, rfl⟩ := h
      obtain ⟨hx, hobj, hres, hidx, hval⟩ := InnerImpls.copy_spec hc
      refine ⟨r, v, object_ok.1 ho, by rw [hobj], ⟨hx.slack, hx.heap, hx.resources⟩,
        by simp [hobj], hres, hidx, ?_, st2, hc, by simp [hobj]⟩
      intro hv
      have := hval hv
      cases v <;> exact this

theorem copyConstruct_wf {st st1 : State} {rhs a : Nat} (hwf : st.WF)
    (h : copyConstruct st rhs = .ok (st1, a)) : st1.WF := by
  obtain ⟨r, v, hr, -, hx, hobj, hres, -, hval, -⟩ := copyConstruct_spec h
  refine hwf.of_ext hx ?_ ?_
  · intro w hw
    rw [hobj] at hw
    rcases List.mem_append.1 hw with hw | hw
    · exact Or.inl hw
    · right
      rw [List.mem_singleton.1 hw]
      exact hval (hwf.objects r (mem_of_getElem? hr))
  · intro w hw
    rw [hres] at hw
    exact Or.inl hw
theorem EagerCopyImpl.assign_eager_spec {st st1 : State} {e r e1 : EagerCopyImpl} {same : Bool}
    (h : EagerCopyImpl.assign st e r same = .ok (st1, e1)) :
    st.Ext st1 ∧ st1.objects = st.objects ∧ st1.resources = st.resources ∧
      ((InnerImpls.eagerCopy e).Valid st → (InnerImpls.eagerCopy r).Valid st →
        (InnerImpls.eagerCopy e1).Valid st1) := by
  unfold EagerCopyImpl.assign at h
  cases same with
  | true =>
    simp at h
    obtain ⟨rfl, rfl⟩ := h
    exact ⟨State.Ext.refl _, rfl, rfl, fun hv _ => hv⟩
  | false =>
    have hc : r.copy st = .ok (st1, e1) := by
      simpa [EagerCopyImpl.copy] using h
    have hc' : (InnerImpls.eagerCopy r).copy st = .ok (st1, .eagerCopy e1) := by
      simp [InnerImpls.copy, hc]
    obtain ⟨hx, hobj, hres, -, hval⟩ := InnerImpls.copy_spec hc'
    exact ⟨hx, hobj, hres, fun _ hr => hval hr⟩

theorem InnerImpls.assignSame_spec {st st1 : State} {v r v1 : InnerImpls} {same : Bool}
    (h : InnerImpls.assignSame st same v r = .ok (st1, v1)) :
    st.Ext st1 ∧ st1.objects = st.objects ∧ st1.resources = st.resources ∧
      v1.index = v.index ∧ (v.Valid st → r.Valid st → v1.Valid st1) := by
  cases v <;> cases r <;>
    first
    | (simp only [InnerImpls.assignSame, Except.ok.injEq, Prod.mk.injEq] at h
       obtain ⟨rfl, rfl⟩ := h
       exact ⟨State.Ext.refl _, rfl, rfl, rfl, fun hv _ => hv⟩)
    | skip
  · rename_i e r
    simp only [InnerImpls.assignSame] at h
    cases hc : EagerCopyImpl.assign st e r same with
    | error err => simp [hc] at h
    | ok res =>
      obtain ⟨st2, e1⟩ := res
      simp [hc] at h
      obtain ⟨rfl, rfl⟩ := h
      obtain ⟨hx, hobj, hres, hval⟩ := EagerCopyImpl.assign_eager_spec hc
      exact ⟨hx, hobj, hres, rfl, hval⟩
  · rename_i c r
    simp only [InnerImpls.assignSame, Except.ok.injEq, Prod.mk.injEq] at h
    obtain ⟨rfl, rfl⟩ := h
    refine ⟨State.Ext.refl _, rfl, rfl, rfl, fun hv hr => ?_⟩
    cases same <;> simpa [CopyOnWriteImpl.assign, InnerImpls.Valid] using (by assumption)
  · rename_i s r
    simp only [InnerImpls.assignSame, ShortStringOptImpl.assign, memcpyBuf] at h
    cases same with
    | true =>
      simp at h
      obtain ⟨rfl, rfl⟩ := h
      exact ⟨State.Ext.refl _, rfl, rfl, rfl, fun hv _ => hv⟩
    | false =>
      by_cases hc : r.size ≤ topThreshold ∧ r.size ≤ r.buf.length
      · simp [hc] at h
        obtain ⟨rfl, rfl⟩ := h
        refine ⟨State.Ext.refl _, rfl, rfl, rfl, fun hv _ => ?_⟩
        have h1 := hc.1
        have h2 := hc.2
        have h3 := hv.2
        simp only [InnerImpls.Valid, List.length_append, List.length_take, List.length_drop]
        omega
      · simp [hc] at h
theorem State.WF.set_object {st st1 : State} (hwf : st1.WF) {d : Nat} {v : InnerImpls}
    (hv : v.Valid st1) (hst : st = { st1 with objects := st1.objects.set d v }) : st.WF := by
  subst hst
  constructor
  · intro w hw
    have hw' : w ∈ st1.objects ∨ w = v := List.mem_or_eq_of_mem_set hw
    rcases hw' with hw' | rfl
    · have := hwf.objects w hw'
      cases w <;> exact this
    · cases w <;> exact hv
  · intro r hr
    exact hwf.resources r hr

theorem assign_spec {st st1 : State} {self rhs : Nat} (h : assign st self rhs = .ok st1) :
    ∃ v r v1 st2, st.objects[self]? = some v ∧ st.objects[rhs]? = some r ∧ st.Ext st2 ∧
      st2.objects = st.objects ∧ st2.resources = st.resources ∧
      st1 = { st2 with objects := st.objects.set self v1 } ∧
      (v.Valid st → r.Valid st → v1.Valid st2) ∧
      (v.index ≠ r.index → ∃ st3 tmp, r.copy st = .ok (st3, tmp) ∧ tmp.copy st3 = .ok (st2, v1)) ∧
      (v.index = r.index → InnerImpls.assignSame st (self == rhs) v r = .ok (st2, v1)) := by
  unfold assign at h
  cases hv : st.object self with
  | error e => simp [hv] at h
  | ok v =>
    cases hr : st.object rhs with
    | error e => simp [hv, hr] at h
    | ok r =>
      simp only [hv, hr] at h
      by_cases hi : v.index = r.index
      · simp only [hi, ne_eq, not_true_eq_false, if_false] at h
        cases hc : InnerImpls.assignSame st (self == rhs) v r with
        | error e => simp [hc] at h
        | ok res =>
          obtain ⟨st2, v1⟩ := res
          simp [hc] at h
          obtain ⟨hx, hobj, hres, -, hval⟩ := InnerImpls.assignSame_spec hc
          refine ⟨v, r, v1, st2, object_ok.1 hv, object_ok.1 hr, hx, hobj, hres, ?_, hval,
            fun hne => absurd hi hne, fun _ => hc⟩
          rw [← h, hobj]
      · simp only [ne_eq, hi, not_false_eq_true, if_true] at h
        cases hc : r.copy st with
        | error e => simp [hc] at h
        | ok res =>
          obtain ⟨st3, tmp⟩ := res
          simp only [hc] at h
          cases hc2 : tmp.copy st3 with
          | error e => simp [hc2] at h
          | ok res2 =>
            obtain ⟨st2, v1⟩ := res2
            simp [hc2] at h
            obtain ⟨hx, hobj, hres, -, hval⟩ := InnerImpls.copy_spec hc
            obtain ⟨hx2, hobj2, hres2, -, hval2⟩ := InnerImpls.copy_spec hc2
            refine ⟨v, r, v1, st2, object_ok.1 hv, object_ok.1 hr, hx.trans hx2,
              hobj2.trans hobj, hres2.trans hres, ?_, fun _ hr => hval2 (hval hr),
              fun _ => ⟨st3, tmp, hc, hc2⟩, fun he => absurd he hi⟩
            rw [← h, hobj2, hobj]

theorem State.WF.of_objects_eq {st st2 : State} (hwf : st.WF) (hx : st.Ext st2)
    (hobj : st2.objects = st.objects) (hres : st2.resources = st.resources) : st2.WF :=
  hwf.of_ext hx (fun _ hv => Or.inl (hobj ▸ hv)) (fun _ hr => Or.inl (hres ▸ hr))

theorem assign_wf {st st1 : State} {self rhs : Nat} (hwf : st.WF)
    (h : assign st self rhs = .ok st1) : st1.WF := by
  obtain ⟨v, r, v1, st2, hv, hr, hx, hobj, hres, hst, hval, -, -⟩ := assign_spec h
  have hwf2 : st2.WF := hwf.of_objects_eq hx hobj hres
  refine hwf2.set_object (d := self)
    (hval (hwf.objects v (mem_of_getElem? hv)) (hwf.objects r (mem_of_getElem? hr))) ?_
  rw [hst, hobj]

theorem subscript_shared_ok {st st1 : State} {self i : Nat} {c : CopyOnWriteImpl} {p : Ptr}
    (ho : st.objects[self]? = some (.copyOnWrite c)) (h : subscript st self i = .ok (st1, p)) :
    ∃ r blk n, st.resources[c.res]? = some r ∧ i < r.size ∧ st.heap[r.start]? = some blk ∧
      strlen (blk ++ st.slack r.start) = some n ∧
      st1 = { st with
                heap := st.heap ++ [(blk ++ st.slack r.start).take n]
                resources := st.resources ++ [{ size := n, capacity := n, start := st.heap.length }]
                objects := st.objects.set self (.copyOnWrite { res := st.resources.length }) } ∧
      p = .heap st.heap.length i := by
  unfold subscript at h
  rw [object_ok.2 ho] at h
  simp only [CopyOnWriteImpl.subscript] at h
  cases hr : st.resource c.res with
  | error e => simp [hr] at h
  | ok r =>
    simp only [hr] at h
    by_cases hi : i < r.size
    · simp only [hi, if_true] at h
      cases hv : st.view r.start with
      | error e => simp [hv] at h
      | ok str =>
        simp only [hv] at h
        obtain ⟨blk, hb, rfl⟩ := view_ok.1 hv
        cases hc : Resource.ofCStr st (blk ++ st.slack r.start) with
        | error e => simp [hc] at h
        | ok res =>
          obtain ⟨st2, r1⟩ := res
          simp only [hc] at h
          obtain ⟨n, hn, rfl, rfl⟩ := Resource.ofCStr_ok.1 hc
          simp [State.makeShared] at h
          exact ⟨r, blk, n, resource_ok.1 hr, hi, hb, hn, h.1.symm, h.2.symm⟩
    · simp [hi] at h

theorem subscript_other_ok {st st1 : State} {self i : Nat} {v : InnerImpls} {p : Ptr}
    (ho : st.objects[self]? = some v) (hk : v.index ≠ 2)
    (h : subscript st self i = .ok (st1, p)) :
    st1 = st ∧ ((∃ e, v = .eagerCopy e ∧ i < e.size ∧ p = .heap e.start i) ∨
      (∃ s, v = .shortStringOpt s ∧ i < s.size ∧ p = .inline self i)) := by
  unfold subscript at h
  rw [object_ok.2 ho] at h
  cases v with
  | monostate => simp at h
  | copyOnWrite c => simp [InnerImpls.index] at hk
  | eagerCopy e =>
    simp only [EagerCopyImpl.subscript] at h
    by_cases hi : i < e.size
    · simp [hi] at h
      exact ⟨h.1.symm, Or.inl ⟨e, rfl, hi, h.2.symm⟩⟩
    · simp [hi] at h
  | shortStringOpt s =>
    simp only [ShortStringOptImpl.subscript] at h
    by_cases hi : i < s.size
    · simp [hi] at h
      exact ⟨h.1.symm, Or.inr ⟨s, rfl, hi, h.2.symm⟩⟩
    · simp [hi] at h
theorem subscript_ext {st st1 : State} {self i : Nat} {p : Ptr}
    (h : subscript st self i = .ok (st1, p)) : st.Ext st1 := by
  cases ho : st.objects[self]? with
  | none => simp [subscript, State.object, ho] at h
  | some v =>
    by_cases hk : v.index = 2
    · cases v with
      | copyOnWrite c =>
        obtain ⟨r, blk, n, -, -, -, -, rfl, -⟩ := subscript_shared_ok ho h
        exact ⟨rfl, ⟨_, rfl⟩, ⟨_, rfl⟩⟩
      | _ => simp [InnerImpls.index] at hk
    · rw [(subscript_other_ok ho hk h).1]
      exact State.Ext.refl _

theorem subscript_wf {st st1 : State} {self i : Nat} {p : Ptr} (hwf : st.WF)
    (h : subscript st self i = .ok (st1, p)) : st1.WF := by
  have hx := subscript_ext h
  cases ho : st.objects[self]? with
  | none => simp [subscript, State.object, ho] at h
  | some v =>
    by_cases hk : v.index = 2
    · cases v with
      | copyOnWrite c =>
        obtain ⟨r, blk, n, -, -, -, hn, rfl, -⟩ := subscript_shared_ok ho h
        have hle : n ≤ (blk ++ st.slack r.start).length := Nat.le_of_lt (strlen_lt hn)
        refine hwf.of_ext hx ?_ ?_
        · intro w hw
          have hw' : w ∈ st.objects ∨ w = _ := List.mem_or_eq_of_mem_set hw
          rcases hw' with hw' | rfl
          · exact Or.inl hw'
          · right; simp [InnerImpls.Valid]
        · intro w hw
          rcases List.mem_append.1 hw with hw | hw
          · exact Or.inl hw
          · right
            rw [List.mem_singleton.1 hw]
            refine ⟨?_, rfl⟩
            rw [hasBlock_iff]
            exact ⟨_, List.getElem?_concat_length _ _, by
              rw [List.length_take, Nat.min_eq_left hle]⟩
      | _ => simp [InnerImpls.index] at hk
    · rw [(subscript_other_ok ho hk h).1]
      exact hwf

theorem store_heap_ok {st st1 : State} {b o : Nat} {c : Byte}
    (h : store st (.heap b o) c = .ok st1) :
    ∃ blk, st.heap[b]? = some blk ∧ o < blk.length ∧
      st1 = { st with heap := st.heap.set b (blk.set o c) } := by
  unfold store at h
  cases hb : st.heap[b]? with
  | none => simp [hb] at h
  | some blk =>
    simp only [hb] at h
    by_cases ho : o < blk.length
    · simp [ho] at h
      exact ⟨blk, rfl, ho, h.symm⟩
    · simp [ho] at h

theorem store_inline_ok {st st1 : State} {a o : Nat} {c : Byte}
    (h : store st (.inline a o) c = .ok st1) :
    ∃ s, st.objects[a]? = some (.shortStringOpt s) ∧ o < s.buf.length ∧
      st1 = { st with
                objects := st.objects.set a (.shortStringOpt { s with buf := s.buf.set o c }) } := by
  unfold store at h
  cases ho : st.object a with
  | error e => simp [ho] at h
  | ok v =>
    cases v with
    | shortStringOpt s =>
      simp only [ho] at h
      by_cases hlt : o < s.buf.length
      · simp [hlt] at h
        exact ⟨s, object_ok.1 ho, hlt, h.symm⟩
      · simp [hlt] at h
    | _ => simp [ho] at h

theorem hasBlock_set {st : State} {b : Nat} {blk1 : List Byte} {blk : List Byte}
    (hb : st.heap[b]? = some blk) (hl : blk1.length = blk.length) {p n : Nat}
    (hp : st.HasBlock p n) : State.HasBlock { st with heap := st.heap.set b blk1 } p n := by
  unfold State.HasBlock at hp ⊢
  show (Option.map List.length (st.heap.set b blk1)[p]?) = some n
  rw [List.getElem?_set]
  by_cases hbp : b = p
  · subst hbp
    have hlt : b < st.heap.length := (List.getElem?_eq_some_iff.1 hb).1
    rw [hb] at hp
    simp [hlt, hl] at hp ⊢
    exact hp
  · simp [hbp, hp]

theorem store_wf {st st1 : State} {p : Ptr} {c : Byte} (hwf : st.WF)
    (h : store st p c = .ok st1) : st1.WF := by
  cases p with
  | heap b o =>
    obtain ⟨blk, hb, -, rfl⟩ := store_heap_ok h
    have hl : (blk.set o c).length = blk.length := List.length_set _ _ _
    constructor
    · intro v hv
      have := hwf.objects v hv
      cases v with
      | eagerCopy e => exact ⟨hasBlock_set hb hl this.1, this.2⟩
      | _ => exact this
    · intro r hr
      have := hwf.resources r hr
      exact ⟨hasBlock_set hb hl this.1, this.2⟩
  | inline a o =>
    obtain ⟨s, hs, -, rfl⟩ := store_inline_ok h
    have hv := hwf.objects _ (mem_of_getElem? hs)
    refine hwf.set_object (d := a) (v := .shortStringOpt { s with buf := s.buf.set o c }) ?_ rfl
    simpa [InnerImpls.Valid] using hv

theorem write_wf {st st1 : State} {self i : Nat} {c : Byte} (hwf : st.WF)
    (h : write st self i c = .ok st1) : st1.WF := by
  unfold write at h
  cases hs : subscript st self i with
  | error e => simp [hs] at h
  | ok res =>
    obtain ⟨st2, p⟩ := res
    simp only [hs] at h
    exact store_wf (subscript_wf hwf hs) h

theorem defaultConstruct_wf {st : State} (hwf : st.WF) : (defaultConstruct st).1.WF := by
  refine hwf.of_ext ⟨rfl, ⟨[], by simp [defaultConstruct, State.newObject]⟩,
    ⟨[], by simp [defaultConstruct, State.newObject]⟩⟩ ?_ ?_
  · intro v hv
    simp only [defaultConstruct, State.newObject] at hv
    rcases List.mem_append.1 hv with hv | hv
    · exact Or.inl hv
    · right; rw [List.mem_singleton.1 hv]; trivial
  · intro r hr
    exact Or.inl hr

theorem Reachable.wf {st : State} (h : Reachable st) : st.WF := by
  induction h with
  | init slack => exact State.WF.init slack
  | defaultConstruct _ ih => exact defaultConstruct_wf ih
  | construct _ h ih => exact construct_wf ih h
  | copyConstruct _ h ih => exact copyConstruct_wf ih h
  | assign _ h ih => exact assign_wf ih h
  | subscript _ h ih => exact subscript_wf ih h
  | write _ h ih => exact write_wf ih h
theorem subscript_outOfRange_iff {st : State} {a i n : Nat} (hl : length st a = .ok n) :
    subscript st a i = .error .outOfRange ↔ n ≤ i := by
  unfold length at hl
  unfold subscript
  cases ho : st.object a with
  | error e => simp [ho] at hl
  | ok v =>
    simp only [ho] at hl ⊢
    cases v with
    | monostate => simp at hl
    | eagerCopy e =>
      simp at hl; subst hl
      by_cases hi : i < e.size
      · simp [EagerCopyImpl.subscript, hi]
      · simp [EagerCopyImpl.subscript, hi]; omega
    | shortStringOpt s =>
      simp at hl; subst hl
      by_cases hi : i < s.size
      · simp [ShortStringOptImpl.subscript, hi]
      · simp [ShortStringOptImpl.subscript, hi]; omega
    | copyOnWrite c =>
      cases hr : st.resource c.res with
      | error e => simp [hr] at hl
      | ok r =>
        simp [hr] at hl; subst hl
        simp only [CopyOnWriteImpl.subscript, hr]
        by_cases hi : i < r.size
        · simp only [hi, if_true]
          have hni : ¬ r.size ≤ i := by omega
          simp only [hni, iff_false]
          cases hv : st.view r.start with
          | error e => simp [view_error hv]
          | ok str =>
            cases hc : Resource.ofCStr st str with
            | error e => simp [hc, Resource.ofCStr_error hc]
            | ok res => simp [hc, State.makeShared]
        · simp [hi]; omega

theorem subscript_succeeds {st : State} {a i n : Nat} (hwf : st.WF)
    (hz : ∀ c r, st.object a = .ok (.copyOnWrite c) → st.resource c.res = .ok r →
      (0 : Byte) ∈ st.slack r.start)
    (hl : length st a = .ok n) (hi : i < n) :
    ∃ st1 p, subscript st a i = .ok (st1, p) := by
  unfold length at hl
  unfold subscript
  cases ho : st.object a with
  | error e => simp [ho] at hl
  | ok v =>
    simp only [ho] at hl ⊢
    cases v with
    | monostate => simp at hl
    | eagerCopy e =>
      simp at hl; subst hl
      simp [EagerCopyImpl.subscript, hi]
    | shortStringOpt s =>
      simp at hl; subst hl
      simp [ShortStringOptImpl.subscript, hi]
    | copyOnWrite c =>
      cases hr : st.resource c.res with
      | error e => simp [hr] at hl
      | ok r =>
        simp [hr] at hl; subst hl
        have hv := hwf.resources r (mem_of_getElem? (resource_ok.1 hr))
        obtain ⟨blk, hb, -⟩ := hasBlock_iff.1 hv.1
        obtain ⟨m, hm⟩ := strlen_of_mem (m := blk ++ st.slack r.start)
          (List.mem_append.2 (Or.inr (hz c r ho hr)))
        have hle : m ≤ blk.length + (st.slack r.start).length := by
          have := strlen_lt hm
          rw [List.length_append] at this; omega
        simp [CopyOnWriteImpl.subscript, hr, hi, State.view, hb, Resource.ofCStr, cStrlen, hm,
          State.mallocMemcpy, hle, State.makeShared]

theorem demoInline_reachable : Reachable demoInline :=
  Reachable.construct (Reachable.init fun _ => [0])
    (construct_inline (State.init fun _ => [0]) [104, 105] [] (by simp) (by decide))


theorem isSharing_true_iff {st : State} {a b : Nat} :
    isSharing st a b = .ok true ↔
      ∃ ca cb, st.object a = .ok (.copyOnWrite ca) ∧ st.object b = .ok (.copyOnWrite cb) ∧
        ca.res = cb.res := by
  unfold isSharing
  cases ha : st.object a with
  | error e => simp
  | ok x =>
    cases hb : st.object b with
    | error e => simp
    | ok y =>
      cases x <;> cases y <;> simp [InnerImpls.index]

theorem isSharing_of_kind {st : State} {a b : Nat} {x y : InnerImpls}
    (ha : st.object a = .ok x) (hb : st.object b = .ok y)
    (hk : x.kind ≠ .shared ∨ y.kind ≠ .shared) : isSharing st a b = .ok false := by
  unfold isSharing
  rw [ha, hb]
  cases x <;> cases y <;> simp [InnerImpls.index, InnerImpls.kind] at hk ⊢

theorem isSharing_shared {st : State} {a b : Nat} {ca cb : CopyOnWriteImpl}
    (ha : st.object a = .ok (.copyOnWrite ca)) (hb : st.object b = .ok (.copyOnWrite cb)) :
    isSharing st a b = .ok (decide (ca.res = cb.res)) := by
  unfold isSharing
  rw [ha, hb]
  simp [InnerImpls.index]

theorem object_set_self {st : State} {a : Nat} {v : InnerImpls} (ha : a < st.objects.length) :
    State.object { st with objects := st.objects.set a v } a = .ok v := by
  simp [State.object, List.getElem?_set, ha]

theorem object_set_ne {st : State} {a x : Nat} {v : InnerImpls} (hx : x ≠ a) :
    State.object { st with objects := st.objects.set a v } x = st.object x := by
  simp [State.object, List.getElem?_set, Ne.symm hx]

theorem object_lt {st : State} {a : Nat} {v : InnerImpls} (h : st.object a = .ok v) :
    a < st.objects.length :=
  (List.getElem?_eq_some_iff.1 (object_ok.1 h)).1

theorem object_of_lt {st : State} {a : Nat} (h : a < st.objects.length) :
    ∃ v, st.object a = .ok v :=
  ⟨st.objects[a], object_ok.2 (List.getElem?_eq_getElem h)⟩


set_option maxRecDepth 100000 in
theorem demoShared_construct :
    construct (State.init fun _ => [0]) (demoLong ++ [0]) = .ok (demoShared, 0) := by rfl

set_option maxRecDepth 100000 in
theorem demoPair_copyConstruct : copyConstruct demoShared 0 = .ok (demoPair, 1) := by rfl

set_option maxRecDepth 100000 in
theorem demoPair_subscript : subscript demoPair 0 0 = .ok (demoPairDetached, .heap 1 0) := by rfl

set_option maxRecDepth 100000 in
theorem demoPair_write : write demoPair 0 0 120 = .ok demoPairWritten := by rfl

theorem demoShared_reachable : Reachable demoShared :=
  Reachable.construct (Reachable.init fun _ => [0]) demoShared_construct

theorem demoPair_reachable : Reachable demoPair :=
  Reachable.copyConstruct demoShared_reachable demoPair_copyConstruct


theorem copyConstruct_shared {st : State} {a : Nat} {c : CopyOnWriteImpl}
    (ha : st.object a = .ok (.copyOnWrite c)) :
    copyConstruct st a =
      .ok ({ st with objects := st.objects ++ [.copyOnWrite c] }, st.objects.length) := by
  simp [copyConstruct, ha, InnerImpls.copy, CopyOnWriteImpl.copy, State.newObject]

theorem object_append_left {st : State} {a : Nat} {v w : InnerImpls}
    (ha : st.object a = .ok v) :
    State.object { st with objects := st.objects ++ [w] } a = .ok v := by
  have hlt := object_lt ha
  have := object_ok.1 ha
  simp [State.object, List.getElem?_append_left hlt, this]

theorem object_append_new {st : State} {w : InnerImpls} :
    State.object { st with objects := st.objects ++ [w] } st.objects.length = .ok w := by
  simp [State.object]


theorem copyConstruct_exclusive {st : State} {a : Nat} {e : EagerCopyImpl} {blk : List Byte}
    (ha : st.object a = .ok (.eagerCopy e)) (hb : st.heap[e.start]? = some blk)
    (hc : e.capacity ≤ blk.length) :
    copyConstruct st a =
      .ok ({ st with
               heap := st.heap ++ [blk.take e.capacity]
               objects := st.objects ++
                 [.eagerCopy { size := e.size, capacity := e.capacity, start := st.heap.length }] },
        st.objects.length) := by
  have hc' : e.capacity ≤ blk.length + (st.slack e.start).length := by omega
  simp [copyConstruct, ha, InnerImpls.copy, EagerCopyImpl.copy, State.view, hb,
    State.mallocMemcpy, hc', State.newObject, List.take_append_of_le_length hc]

theorem object_of_objects_append {st st2 : State} {a : Nat} {v w : InnerImpls}
    (h : st2.objects = st.objects ++ [w]) (ha : st.object a = .ok v) : st2.object a = .ok v := by
  have hlt := object_lt ha
  have := object_ok.1 ha
  simp [State.object, h, List.getElem?_append_left hlt, this]

theorem object_of_objects_new {st st2 : State} {w : InnerImpls}
    (h : st2.objects = st.objects ++ [w]) : st2.object st.objects.length = .ok w := by
  simp [State.object, h]


theorem wrapInt_succ {k : Nat} (h : k < 2147483647) :
    wrapInt ((k : Int) + 1) = ((k + 1 : Nat) : Int) := by
  unfold wrapInt
  push_cast
  omega

theorem wrapInt_max : wrapInt ((2147483647 : Nat) + 1) < 0 := by
  unfold wrapInt
  omega

theorem equalsLoop_neg (st : State) (sx sy : Ptr) {i : Int} (h : i < 0) (n : Nat) :
    equalsLoop st sx sy i n = .ok true := by
  cases n <;> simp [equalsLoop, h]

theorem equalsLoop_step (st : State) (sx sy : Ptr) (k n : Nat) {x y : Byte}
    (hx : load st sx k = .ok x) (hy : load st sy k = .ok y) :
    equalsLoop st sx sy (k : Int) (n + 1) =
      if x ≠ y then .ok false else equalsLoop st sx sy (wrapInt ((k : Int) + 1)) n := by
  have hk : ¬ ((k : Int) < 0) := by omega
  simp only [equalsLoop, hk, if_false, Int.toNat_ofNat, hx, hy]

theorem equalsLoop_next (st : State) (sx sy : Ptr) (k n : Nat) (hk : k ≤ 2147483647) :
    (k < 2147483647 ∧
      equalsLoop st sx sy (wrapInt ((k : Int) + 1)) n =
        equalsLoop st sx sy ((k + 1 : Nat) : Int) n) ∨
    (k = 2147483647 ∧ equalsLoop st sx sy (wrapInt ((k : Int) + 1)) n = .ok true) := by
  by_cases h : k < 2147483647
  · exact Or.inl ⟨h, by rw [wrapInt_succ h]⟩
  · have hk2 : k = 2147483647 := by omega
    subst hk2
    exact Or.inr ⟨rfl, equalsLoop_neg st sx sy wrapInt_max n⟩

theorem equalsLoop_returns (st : State) (sx sy : Ptr) (n k : Nat) (hk : k ≤ 2147483647)
    (hx : ∀ j, j < k + n → ∃ x, load st sx j = .ok x)
    (hy : ∀ j, j < k + n → ∃ y, load st sy j = .ok y) :
    ∃ r, equalsLoop st sx sy (k : Int) n = .ok r := by
  induction n generalizing k with
  | zero => exact ⟨true, rfl⟩
  | succ n ih =>
    obtain ⟨x, hx0⟩ := hx k (by omega)
    obtain ⟨y, hy0⟩ := hy k (by omega)
    rw [equalsLoop_step st sx sy k n hx0 hy0]
    by_cases hxy : x = y
    · simp only [hxy, ne_eq, not_true_eq_false, if_false]
      rcases equalsLoop_next st sx sy k n hk with ⟨hlt, he⟩ | ⟨-, he⟩
      · rw [he]
        exact ih (k + 1) (by omega) (fun j hj => hx j (by omega)) (fun j hj => hy j (by omega))
      · exact ⟨true, he⟩
    · exact ⟨false, by simp [hxy]⟩

theorem equalsLoop_true (st : State) (sx sy : Ptr) (n k : Nat) (hk : k ≤ 2147483647)
    (hx : ∀ j, j < k + n → ∃ x, load st sx j = .ok x)
    (he : ∀ j, j < k + n → load st sx j = load st sy j) :
    equalsLoop st sx sy (k : Int) n = .ok true := by
  induction n generalizing k with
  | zero => rfl
  | succ n ih =>
    obtain ⟨x, hx0⟩ := hx k (by omega)
    have hy0 : load st sy k = .ok x := by rw [← he k (by omega)]; exact hx0
    rw [equalsLoop_step st sx sy k n hx0 hy0]
    simp only [ne_eq, not_true_eq_false, if_false]
    rcases equalsLoop_next st sx sy k n hk with ⟨hlt, h1⟩ | ⟨-, h1⟩
    · rw [h1]
      exact ih (k + 1) (by omega) (fun j hj => hx j (by omega)) (fun j hj => he j (by omega))
    · exact h1

theorem equalsLoop_small (st : State) (sx sy : Ptr) (n k : Nat) (hb : k + n ≤ 2147483648)
    (hx : ∀ j, j < k + n → ∃ x, load st sx j = .ok x)
    (hy : ∀ j, j < k + n → ∃ y, load st sy j = .ok y) :
    ∃ r, equalsLoop st sx sy (k : Int) n = .ok r ∧
      (r = true ↔ ∀ j, k ≤ j → j < k + n → load st sx j = load st sy j) := by
  induction n generalizing k with
  | zero => exact ⟨true, rfl, by simp; intro j h1 h2; omega⟩
  | succ n ih =>
    obtain ⟨x, hx0⟩ := hx k (by omega)
    obtain ⟨y, hy0⟩ := hy k (by omega)
    rw [equalsLoop_step st sx sy k n hx0 hy0]
    by_cases hxy : x = y
    · simp only [hxy, ne_eq, not_true_eq_false, if_false]
      rcases equalsLoop_next st sx sy k n (by omega) with ⟨hlt, h1⟩ | ⟨hk2, h1⟩
      · rw [h1]
        obtain ⟨r, hr, hiff⟩ := ih (k + 1) (by omega) (fun j hj => hx j (by omega))
          (fun j hj => hy j (by omega))
        refine ⟨r, hr, ?_⟩
        rw [hiff]
        constructor
        · intro h j hj1 hj2
          by_cases hjk : j = k
          · subst hjk; rw [hx0, hy0, hxy]
          · exact h j (by omega) (by omega)
        · intro h j hj1 hj2
          exact h j (by omega) (by omega)
      · refine ⟨true, h1, ?_⟩
        simp only [true_iff]
        intro j hj1 hj2
        have hjk : j = k := by omega
        subst hjk; rw [hx0, hy0, hxy]
    · refine ⟨false, by simp [hxy], ?_⟩
      simp only [Bool.false_eq_true, false_iff, not_forall]
      refine ⟨k, Nat.le_refl k, by omega, ?_⟩
      rw [hx0, hy0]
      simpa using hxy

theorem equalsLoop_wrapped (st : State) (sx sy : Ptr) (n k : Nat) (hk : k ≤ 2147483647)
    (hn : 2147483647 < k + n)
    (hx : ∀ j, k ≤ j → j ≤ 2147483647 → ∃ x, load st sx j = .ok x)
    (he : ∀ j, k ≤ j → j ≤ 2147483647 → load st sx j = load st sy j) :
    equalsLoop st sx sy (k : Int) n = .ok true := by
  induction n generalizing k with
  | zero => omega
  | succ n ih =>
    obtain ⟨x, hx0⟩ := hx k (Nat.le_refl k) hk
    have hy0 : load st sy k = .ok x := by rw [← he k (Nat.le_refl k) hk]; exact hx0
    rw [equalsLoop_step st sx sy k n hx0 hy0]
    simp only [ne_eq, not_true_eq_false, if_false]
    rcases equalsLoop_next st sx sy k n hk with ⟨hlt, h1⟩ | ⟨-, h1⟩
    · rw [h1]
      exact ih (k + 1) (by omega) (by omega) (fun j h1 h2 => hx j (by omega) h2)
        (fun j h1 h2 => he j (by omega) h2)
    · exact h1

theorem readable_of_length {st : State} {a n : Nat} (hwf : st.WF) (hl : length st a = .ok n) :
    ∃ p, data st a = .ok p ∧ ∀ i, i < n → ∃ x, load st p i = .ok x := by
  unfold length at hl
  unfold data
  cases ho : st.object a with
  | error e => simp [ho] at hl
  | ok v =>
    have hv := hwf.objects v (mem_of_getElem? (object_ok.1 ho))
    simp only [ho] at hl ⊢
    cases v with
    | monostate => simp at hl
    | eagerCopy e =>
      simp at hl; subst hl
      obtain ⟨blk, hb, hlen⟩ := hasBlock_iff.1 hv.1
      refine ⟨_, rfl, fun i hi => ?_⟩
      have hi' : i < blk.length := by omega
      simp [load, State.view, hb, List.getElem?_append_left hi', List.getElem?_eq_getElem hi']
    | shortStringOpt s =>
      simp at hl; subst hl
      refine ⟨_, rfl, fun i hi => ?_⟩
      have hi' : i < s.buf.length := Nat.lt_of_lt_of_le hi hv.1
      simp [load, ho, List.getElem?_eq_getElem hi']
    | copyOnWrite c =>
      cases hr : st.resource c.res with
      | error e => simp [hr] at hl
      | ok r =>
        simp [hr] at hl; subst hl
        have hrv := hwf.resources r (mem_of_getElem? (resource_ok.1 hr))
        obtain ⟨blk, hb, hlen⟩ := hasBlock_iff.1 hrv.1
        refine ⟨.heap r.start 0, by simp [hr], fun i hi => ?_⟩
        have hi' : i < blk.length := by omega
        simp [load, State.view, hb, List.getElem?_append_left hi', List.getElem?_eq_getElem hi']


set_option maxRecDepth 100000 in
theorem demoCompare_construct : construct demoShared (demoG ++ [0]) = .ok (demoCompare, 1) := by
  rfl

theorem demoCompare_reachable : Reachable demoCompare :=
  Reachable.construct demoShared_reachable demoCompare_construct

theorem strlen_get {m : List Byte} {n : Nat} (h : strlen m = some n) : m[n]? = some 0 := by
  induction m generalizing n with
  | nil => simp [strlen] at h
  | cons b bs ih =>
    by_cases hb : b = 0
    · simp [strlen, hb] at h; subst h; simp [hb]
    · simp [strlen, hb] at h
      obtain ⟨k, hk, rfl⟩ := h
      simpa using ih hk

theorem write_returns {st : State} {a i n : Nat} (c : Byte) (hwf : st.WF)
    (hl : length st a = .ok n) (hi : i < n)
    (hz : ∀ ca r, st.object a = .ok (.copyOnWrite ca) → st.resource ca.res = .ok r →
      (0 : Byte) ∈ st.slack r.start)
    (hnz : ∀ j, j ≤ i → byteAt st a j ≠ .ok 0) :
    ∃ st1, write st a i c = .ok st1 := by
  unfold length at hl
  cases ho : st.object a with
  | error e => simp [ho] at hl
  | ok v =>
    have hv := hwf.objects v (mem_of_getElem? (object_ok.1 ho))
    simp only [ho] at hl
    cases v with
    | monostate => simp at hl
    | eagerCopy e =>
      simp at hl; subst hl
      obtain ⟨blk, hb, hlen⟩ := hasBlock_iff.1 hv.1
      have hi' : i < blk.length := by omega
      simp [write, subscript, ho, EagerCopyImpl.subscript, hi, store, hb, hi']
    | shortStringOpt s =>
      simp at hl; subst hl
      have hi' : i < s.buf.length := Nat.lt_of_lt_of_le hi hv.1
      simp [write, subscript, ho, ShortStringOptImpl.subscript, hi, store, hi']
    | copyOnWrite ca =>
      cases hr : st.resource ca.res with
      | error e => simp [hr] at hl
      | ok r =>
        simp [hr] at hl; subst hl
        have hrv := hwf.resources r (mem_of_getElem? (resource_ok.1 hr))
        obtain ⟨blk, hb, hlen⟩ := hasBlock_iff.1 hrv.1
        obtain ⟨m, hm⟩ := strlen_of_mem (m := blk ++ st.slack r.start)
          (List.mem_append.2 (Or.inr (hz ca r ho hr)))
        have hle : m ≤ blk.length + (st.slack r.start).length := by
          have := strlen_lt hm
          rw [List.length_append] at this; omega
        have him : i < m := by
          by_contra hcon
          have hmi : m ≤ i := by omega
          apply hnz m hmi
          simp [byteAt, data, ho, hr, load, State.view, hb, strlen_get hm]
        have hmin : i < min m (blk.length + (st.slack r.start).length) := by
          rw [Nat.min_eq_left hle]; exact him
        simp [write, subscript, ho, CopyOnWriteImpl.subscript, hr, hi, State.view, hb,
          Resource.ofCStr, cStrlen, hm, State.mallocMemcpy, hle, State.makeShared, store, hmin, him]

theorem object_error {st : State} {a : Nat} {e : Error} (h : st.object a = .error e) :
    e = .undefined := by
  unfold State.object at h; cases hs : st.objects[a]? <;> simp [hs] at h; exact h.symm

theorem length_error {st : State} {a : Nat} {e : Error} (h : length st a = .error e) :
    e = .undefined := by
  unfold length at h
  cases ho : st.object a with
  | error e1 => simp [ho] at h; rw [← h]; exact object_error ho
  | ok v =>
    cases v with
    | monostate => simp [ho] at h; exact h.symm
    | eagerCopy e1 => simp [ho] at h
    | shortStringOpt s => simp [ho] at h
    | copyOnWrite c =>
      simp only [ho] at h
      cases hr : st.resource c.res with
      | error e1 => simp [hr] at h; rw [← h]; exact resource_error hr
      | ok r => simp [hr] at h

theorem data_error {st : State} {a : Nat} {e : Error} (h : data st a = .error e) :
    e = .undefined := by
  unfold data at h
  cases ho : st.object a with
  | error e1 => simp [ho] at h; rw [← h]; exact object_error ho
  | ok v =>
    cases v with
    | monostate => simp [ho] at h; exact h.symm
    | eagerCopy e1 => simp [ho] at h
    | shortStringOpt s => simp [ho] at h
    | copyOnWrite c =>
      simp only [ho] at h
      cases hr : st.resource c.res with
      | error e1 => simp [hr] at h; rw [← h]; exact resource_error hr
      | ok r => simp [hr] at h

theorem load_error {st : State} {p : Ptr} {i : Nat} {e : Error} (h : load st p i = .error e) :
    e = .undefined := by
  unfold load at h
  cases p with
  | heap b o =>
    simp only at h
    cases hv : st.view b with
    | error e1 => simp [hv] at h; rw [← h]; exact view_error hv
    | ok mem =>
      simp only [hv] at h
      cases hm : mem[o + i]? <;> simp [hm] at h
      exact h.symm
  | inline a o =>
    simp only at h
    cases ho : st.object a with
    | error e1 => simp [ho] at h; exact h.symm
    | ok v =>
      cases v with
      | shortStringOpt s =>
        simp only [ho] at h
        cases hm : s.buf[o + i]? <;> simp [hm] at h
        exact h.symm
      | _ => simp [ho] at h; exact h.symm

theorem equalsLoop_symm (st : State) (sx sy : Ptr) (n : Nat) (i : Int) :
    equalsLoop st sx sy i n = equalsLoop st sy sx i n := by
  induction n generalizing i with
  | zero => rfl
  | succ n ih =>
    unfold equalsLoop
    by_cases hi : i < 0
    · simp [hi]
    · simp only [hi, if_false]
      cases hx : load st sx i.toNat with
      | error e1 =>
        have h1 := load_error hx
        cases hy : load st sy i.toNat with
        | error e2 => simp [h1, load_error hy]
        | ok y => simp
      | ok x =>
        cases hy : load st sy i.toNat with
        | error e2 => simp
        | ok y =>
          by_cases hxy : x = y
          · simp [hxy, ih]
          · simp [hxy, Ne.symm hxy]

theorem equals_symm (st : State) (a b : Nat) : equals st a b = equals st b a := by
  by_cases hab : a = b
  · subst hab; rfl
  · unfold equals
    simp only [ne_eq, hab, not_false_eq_true, if_true, Ne.symm hab]
    cases hla : length st a with
    | error e1 =>
      have h1 := length_error hla
      cases hlb : length st b with
      | error e2 => simp [h1, length_error hlb]
      | ok lb => simp
    | ok la =>
      cases hlb : length st b with
      | error e2 => simp
      | ok lb =>
        by_cases hll : la = lb
        · subst hll
          simp only [if_true]
          cases hpa : data st a with
          | error e1 =>
            have h1 := data_error hpa
            cases hpb : data st b with
            | error e2 => simp [h1, data_error hpb]
            | ok pb => simp
          | ok pa =>
            cases hpb : data st b with
            | error e2 => simp
            | ok pb => simp [equalsLoop_symm st pa pb la 0]
        · simp [hll, Ne.symm hll]

theorem equals_returns {st : State} {a b la lb : Nat} (hwf : st.WF)
    (hla : length st a = .ok la) (hlb : length st b = .ok lb) :
    ∃ r, equals st a b = .ok r := by
  by_cases hab : a = b
  · subst hab; exact ⟨true, by simp [equals]⟩
  · obtain ⟨pa, hpa, hra⟩ := readable_of_length hwf hla
    obtain ⟨pb, hpb, hrb⟩ := readable_of_length hwf hlb
    by_cases hll : la = lb
    · subst hll
      obtain ⟨r, hr⟩ := equalsLoop_returns st pa pb la 0 (by omega)
        (fun j hj => hra j (by omega)) (fun j hj => hrb j (by omega))
      exact ⟨r, by simpa [equals, hab, hla, hlb, hpa, hpb] using hr⟩
    · exact ⟨false, by simp [equals, hab, hla, hlb, hll]⟩

theorem equals_spec {st : State} {a b la lb : Nat} (hwf : st.WF) (hab : a ≠ b)
    (hla : length st a = .ok la) (hlb : length st b = .ok lb) (hsmall : la ≤ 2147483648) :
    ∃ r, equals st a b = .ok r ∧
      (r = true ↔ la = lb ∧ ∀ i, i < la → byteAt st a i = byteAt st b i) := by
  obtain ⟨pa, hpa, hra⟩ := readable_of_length hwf hla
  obtain ⟨pb, hpb, hrb⟩ := readable_of_length hwf hlb
  by_cases hll : la = lb
  · subst hll
    obtain ⟨r, hr1, hr2⟩ := equalsLoop_small st pa pb la 0 (by omega)
      (fun j hj => hra j (by omega)) (fun j hj => hrb j (by omega))
    refine ⟨r, by simpa [equals, hab, hla, hlb, hpa, hpb] using hr1, ?_⟩
    simp only [byteAt, hpa, hpb, true_and]
    rw [hr2]
    constructor
    · intro h i hi; exact h i (Nat.zero_le i) (by omega)
    · intro h j _ hj; exact h j (by omega)
  · exact ⟨false, by simp [equals, hab, hla, hlb, hll], by simp [hll]⟩

theorem equals_true_of_bytes {st : State} {a b n : Nat} (hwf : st.WF)
    (hla : length st a = .ok n) (hlb : length st b = .ok n)
    (hb : ∀ i, i < n → byteAt st a i = byteAt st b i) : equals st a b = .ok true := by
  by_cases hab : a = b
  · subst hab; simp [equals]
  · obtain ⟨pa, hpa, hra⟩ := readable_of_length hwf hla
    obtain ⟨pb, hpb, -⟩ := readable_of_length hwf hlb
    have hloop := equalsLoop_true st pa pb n 0 (by omega) (fun j hj => hra j (by omega))
      (fun j hj => by
        have := hb j (by omega)
        simpa [byteAt, hpa, hpb] using this)
    simpa [equals, hab, hla, hlb, hpa, hpb] using hloop

theorem list_set_same {α : Type} {l : List α} {i : Nat} {x : α} (h : l[i]? = some x) :
    l.set i x = l := by
  induction l generalizing i with
  | nil => rfl
  | cons y ys ih =>
    cases i with
    | zero => simp at h; simp [h]
    | succ k => simp at h; simp [ih h]

theorem subscriptRun_agrees (st : State) (a i : Nat) :
    subscript st a i =
      match subscriptRun st a i with
      | (st1, .ok p) => .ok (st1, p)
      | (_, .error e) => .error e := by
  unfold subscript subscriptRun
  cases ho : st.object a with
  | error e => rfl
  | ok v =>
    cases v with
    | monostate => rfl
    | eagerCopy e => simp only; cases e.subscript i <;> rfl
    | shortStringOpt s => simp only; cases s.subscript a i <;> rfl
    | copyOnWrite c =>
      simp only [CopyOnWriteImpl.subscript, CopyOnWriteImpl.subscriptRun]
      cases hr : st.resource c.res with
      | error e => rfl
      | ok r =>
        simp only
        by_cases hi : i < r.size
        · simp only [hi, if_true]
          cases hv : st.view r.start with
          | error e => rfl
          | ok str =>
            simp only
            cases hc : Resource.ofCStr st str with
            | error e => rfl
            | ok res => rfl
        · simp only [hi, if_false]

theorem subscriptRun_outOfRange {st : State} {a i n : Nat} (hl : length st a = .ok n)
    (hi : n ≤ i) : subscriptRun st a i = (st, .error .outOfRange) := by
  unfold length at hl
  unfold subscriptRun
  cases ho : st.object a with
  | error e => simp [ho] at hl
  | ok v =>
    simp only [ho] at hl ⊢
    cases v with
    | monostate => simp at hl
    | eagerCopy e =>
      simp at hl; subst hl
      have : ¬ i < e.size := by omega
      simp [EagerCopyImpl.subscript, this]
    | shortStringOpt s =>
      simp at hl; subst hl
      have : ¬ i < s.size := by omega
      simp [ShortStringOptImpl.subscript, this]
    | copyOnWrite c =>
      cases hr : st.resource c.res with
      | error e => simp [hr] at hl
      | ok r =>
        simp [hr] at hl; subst hl
        have : ¬ i < r.size := by omega
        simp only [CopyOnWriteImpl.subscriptRun, hr, this, if_false]
        rw [list_set_same (object_ok.1 ho)]

theorem InnerImpls.Holds.reads {st : State} {a : Nat} {v : InnerImpls} {bs : List Byte}
    (ho : st.object a = .ok v) (h : v.Holds st bs) :
    length st a = .ok bs.length ∧
      ∀ (i : Nat) (hi : i < bs.length), byteAt st a i = .ok (bs.get ⟨i, hi⟩) := by
  cases v with
  | monostate => exact absurd h id
  | eagerCopy e =>
    obtain ⟨hb, hl, -⟩ := h
    refine ⟨by simp [length, ho, hl], fun i hi => ?_⟩
    simp [byteAt, data, ho, load, State.view, hb, List.getElem?_append_left hi,
      List.getElem?_eq_getElem hi]
  | copyOnWrite c =>
    obtain ⟨r, hr, hb, hl⟩ := h
    refine ⟨by simp [length, ho, State.resource, hr, hl], fun i hi => ?_⟩
    simp [byteAt, data, ho, State.resource, hr, load, State.view, hb,
      List.getElem?_append_left hi, List.getElem?_eq_getElem hi]
  | shortStringOpt s =>
    obtain ⟨rfl, hl, -⟩ := h
    refine ⟨by simp [length, ho, hl], fun i hi => ?_⟩
    have hi' : i < s.size := by simpa [hl] using hi
    have hi2 : i < s.buf.length := by omega
    simp [byteAt, data, ho, load, List.getElem?_eq_getElem hi2, List.getElem_take]

theorem InnerImpls.Holds.mono {st st1 : State} {v : InnerImpls} {bs : List Byte}
    (hx : st.Ext st1) (h : v.Holds st bs) : v.Holds st1 bs := by
  cases v with
  | monostate => exact h
  | eagerCopy e => exact ⟨hx.heap_get h.1, h.2⟩
  | copyOnWrite c =>
    obtain ⟨r, hr, hb, hl⟩ := h
    exact ⟨r, hx.resource_get hr, hx.heap_get hb, hl⟩
  | shortStringOpt s => exact h

theorem InnerImpls.Holds.of_heap_eq {st st1 : State} {v : InnerImpls} {bs : List Byte}
    (hh : st1.heap = st.heap) (hr : st1.resources = st.resources) (h : v.Holds st bs) :
    v.Holds st1 bs := by
  cases v with
  | monostate => exact h
  | eagerCopy e => exact ⟨by rw [hh]; exact h.1, h.2⟩
  | copyOnWrite c =>
    obtain ⟨r, hr1, hb, hl⟩ := h
    exact ⟨r, by rw [hr]; exact hr1, by rw [hh]; exact hb, hl⟩
  | shortStringOpt s => exact h

theorem holds_of_length {st : State} {a n : Nat} (hwf : st.WF) (hl : length st a = .ok n) :
    ∃ v bs, st.object a = .ok v ∧ v.Valid st ∧ v.Holds st bs ∧ bs.length = n := by
  unfold length at hl
  cases ho : st.object a with
  | error e => simp [ho] at hl
  | ok v =>
    have hv := hwf.objects v (mem_of_getElem? (object_ok.1 ho))
    simp only [ho] at hl
    cases v with
    | monostate => simp at hl
    | eagerCopy e =>
      simp at hl; subst hl
      obtain ⟨blk, hb, hlen⟩ := hasBlock_iff.1 hv.1
      exact ⟨_, blk, rfl, hv, ⟨hb, hlen, hv.2⟩, hlen⟩
    | shortStringOpt s =>
      simp at hl; subst hl
      exact ⟨_, s.buf.take s.size, rfl, hv, ⟨rfl, hv.1, Nat.le_trans hv.1 hv.2⟩, by
        simp [hv.1]⟩
    | copyOnWrite c =>
      cases hr : st.resource c.res with
      | error e => simp [hr] at hl
      | ok r =>
        simp [hr] at hl; subst hl
        have hrv := hwf.resources r (mem_of_getElem? (resource_ok.1 hr))
        obtain ⟨blk, hb, hlen⟩ := hasBlock_iff.1 hrv.1
        exact ⟨_, blk, rfl, hv, ⟨r, resource_ok.1 hr, hb, hlen⟩, hlen⟩

theorem InnerImpls.copy_holds {st st1 : State} {v v1 : InnerImpls} {bs : List Byte}
    (hc : v.copy st = .ok (st1, v1)) (h : v.Holds st bs) : v1.Holds st1 bs := by
  cases v with
  | monostate => exact absurd h id
  | copyOnWrite c =>
    simp [InnerImpls.copy, CopyOnWriteImpl.copy] at hc
    obtain ⟨rfl, rfl⟩ := hc
    exact h
  | shortStringOpt s =>
    obtain ⟨rfl, hl, ht⟩ := h
    simp [InnerImpls.copy, ShortStringOptImpl.copy, memcpyBuf, hl, ht] at hc
    obtain ⟨rfl, rfl⟩ := hc
    exact ⟨by simp [List.take_take], by simp [hl], ht⟩
  | eagerCopy e =>
    obtain ⟨hb, hl, hcap⟩ := h
    have hle : e.capacity ≤ bs.length + (st.slack e.start).length := by omega
    have hle2 : e.capacity ≤ bs.length := by omega
    simp [InnerImpls.copy, EagerCopyImpl.copy, State.view, hb, State.mallocMemcpy, hle] at hc
    obtain ⟨rfl, rfl⟩ := hc
    refine ⟨?_, hl, hcap⟩
    show (st.heap ++ [List.take e.capacity (bs ++ st.slack e.start)])[st.heap.length]? = some bs
    rw [List.getElem?_concat_length, List.take_append_of_le_length hle2, hcap, ← hl,
      List.take_length]

theorem InnerImpls.copy_total {st : State} {v : InnerImpls} (hv : v.Valid st) :
    ∃ st1 v1, v.copy st = .ok (st1, v1) := by
  cases v with
  | monostate => exact ⟨_, _, rfl⟩
  | copyOnWrite c => exact ⟨_, _, rfl⟩
  | shortStringOpt s =>
    have h1 : s.size ≤ topThreshold := Nat.le_trans hv.1 hv.2
    simp [InnerImpls.copy, ShortStringOptImpl.copy, memcpyBuf, hv.1, h1]
  | eagerCopy e =>
    obtain ⟨blk, hb, hlen⟩ := hasBlock_iff.1 hv.1
    have hle : e.capacity ≤ blk.length + (st.slack e.start).length := by
      have := hv.2; omega
    simp [InnerImpls.copy, EagerCopyImpl.copy, State.view, hb, State.mallocMemcpy, hle]

theorem read_ext {st st1 : State} {a : Nat} (hwf : st.WF) (hx : st.Ext st1)
    (ho : st1.object a = st.object a) :
    length st1 a = length st a ∧ ∀ j, byteAt st1 a j = byteAt st a j := by
  cases hv : st.object a with
  | error e =>
    rw [hv] at ho
    exact ⟨by simp [length, ho, hv], fun j => by simp [byteAt, data, ho, hv]⟩
  | ok v =>
    rw [hv] at ho
    have hval := hwf.objects v (mem_of_getElem? (object_ok.1 hv))
    cases v with
    | monostate => exact ⟨by simp [length, ho, hv], fun j => by simp [byteAt, data, ho, hv]⟩
    | eagerCopy e =>
      obtain ⟨blk, hb, -⟩ := hasBlock_iff.1 hval.1
      refine ⟨by simp [length, ho, hv], fun j => ?_⟩
      simp [byteAt, data, ho, hv, load, hx.view hb]
    | shortStringOpt s =>
      refine ⟨by simp [length, ho, hv], fun j => ?_⟩
      simp [byteAt, data, ho, hv, load]
    | copyOnWrite c =>
      have hlt : c.res < st.resources.length := hval
      have hr : st.resources[c.res]? = some st.resources[c.res] := List.getElem?_eq_getElem hlt
      have hrv := hwf.resources _ (mem_of_getElem? hr)
      obtain ⟨blk, hb, -⟩ := hasBlock_iff.1 hrv.1
      have hr1 := hx.resource_get hr
      refine ⟨by simp [length, ho, hv, State.resource, hr, hr1], fun j => ?_⟩
      simp [byteAt, data, ho, hv, State.resource, hr, hr1, load, hx.view hb]

theorem kind_eq_of_index_eq {v w : InnerImpls} (h : v.index = w.index) : v.kind = w.kind := by
  cases v <;> cases w <;> simp [InnerImpls.index, InnerImpls.kind] at h ⊢

theorem object_congr {st st1 : State} (h : st1.objects = st.objects) (a : Nat) :
    st1.object a = st.object a := by
  simp [State.object, h]

theorem holds_bytes_eq {st st1 : State} {a b : Nat} {v w : InnerImpls} {bs : List Byte}
    (ha : st.object a = .ok v) (hv : v.Holds st bs) (hb : st1.object b = .ok w)
    (hw : w.Holds st1 bs) :
    length st1 b = .ok bs.length ∧ length st a = .ok bs.length ∧
      ∀ i, i < bs.length → byteAt st1 b i = byteAt st a i := by
  refine ⟨(hw.reads hb).1, (hv.reads ha).1, fun i hi => ?_⟩
  rw [(hw.reads hb).2 i hi, (hv.reads ha).2 i hi]

theorem InnerImpls.assignSame_self {st : State} {v r : InnerImpls} (h : v.index = r.index) :
    InnerImpls.assignSame st true v r = .ok (st, v) := by
  cases v <;> cases r <;>
    simp [InnerImpls.index, InnerImpls.assignSame, EagerCopyImpl.assign, CopyOnWriteImpl.assign,
      ShortStringOptImpl.assign] at h ⊢

theorem InnerImpls.assignSame_total {st : State} {v r : InnerImpls} (same : Bool)
    (hr : r.Valid st) : ∃ st1 v1, InnerImpls.assignSame st same v r = .ok (st1, v1) := by
  cases same with
  | true =>
    cases v <;> cases r <;>
      simp [InnerImpls.assignSame, EagerCopyImpl.assign, CopyOnWriteImpl.assign,
        ShortStringOptImpl.assign]
  | false =>
    cases v <;> cases r <;>
      first
      | exact ⟨_, _, rfl⟩
      | skip
    · rename_i e r
      obtain ⟨blk, hb, hlen⟩ := hasBlock_iff.1 hr.1
      have hle : r.capacity ≤ blk.length + (st.slack r.start).length := by
        have := hr.2; omega
      simp [InnerImpls.assignSame, EagerCopyImpl.assign, State.view, hb, State.mallocMemcpy, hle]
    · rename_i s r
      have h1 : r.size ≤ topThreshold := Nat.le_trans hr.1 hr.2
      simp [InnerImpls.assignSame, ShortStringOptImpl.assign, memcpyBuf, hr.1, h1]

theorem InnerImpls.assignSame_holds {st st1 : State} {v r v1 : InnerImpls} {bs : List Byte}
    (hc : InnerImpls.assignSame st false v r = .ok (st1, v1)) (hi : v.index = r.index)
    (h : r.Holds st bs) : v1.Holds st1 bs := by
  cases v <;> cases r <;> simp [InnerImpls.index] at hi
  · exact absurd h id
  · rename_i e r
    have hc' : (InnerImpls.eagerCopy r).copy st = .ok (st1, v1) := by
      simp only [InnerImpls.assignSame, EagerCopyImpl.assign] at hc
      simpa [InnerImpls.copy, EagerCopyImpl.copy] using hc
    exact InnerImpls.copy_holds hc' h
  · rename_i c r
    simp [InnerImpls.assignSame, CopyOnWriteImpl.assign] at hc
    obtain ⟨rfl, rfl⟩ := hc
    exact h
  · rename_i s r
    obtain ⟨rfl, hl, ht⟩ := h
    simp [InnerImpls.assignSame, ShortStringOptImpl.assign, memcpyBuf, hl, ht] at hc
    obtain ⟨rfl, rfl⟩ := hc
    refine ⟨?_, by simp [hl], ht⟩
    show List.take r.size r.buf = List.take r.size (List.take r.size r.buf ++ List.drop r.size s.buf)
    rw [List.take_append_of_le_length (by simp [hl]), List.take_take, Nat.min_self]

theorem assign_effect {st : State} {d s : Nat} {vd vs : InnerImpls} {bs : List Byte}
    (hds : d ≠ s) (hd : st.object d = .ok vd) (hs : st.object s = .ok vs)
    (hval : vs.Valid st) (hh : vs.Holds st bs) :
    ∃ st2 v1, assign st d s = .ok { st2 with objects := st2.objects.set d v1 } ∧
      st.Ext st2 ∧ st2.objects = st.objects ∧ st2.resources = st.resources ∧
      v1.index = vs.index ∧ v1.Holds st2 bs := by
  have hbeq : (d == s) = false := by simp [hds]
  by_cases hidx : vd.index = vs.index
  · obtain ⟨st2, v1, hc⟩ := InnerImpls.assignSame_total (v := vd) false hval
    obtain ⟨hx, hobj, hres, hi1, -⟩ := InnerImpls.assignSame_spec hc
    refine ⟨st2, v1, ?_, hx, hobj, hres, hi1.trans hidx,
      InnerImpls.assignSame_holds hc hidx hh⟩
    simp [assign, hd, hs, hidx, hbeq, hc]
  · obtain ⟨st3, tmp, hc⟩ := InnerImpls.copy_total hval
    obtain ⟨hx, hobj, hres, hi1, hv1⟩ := InnerImpls.copy_spec hc
    obtain ⟨st2, v1, hc2⟩ := InnerImpls.copy_total (hv1 hval)
    obtain ⟨hx2, hobj2, hres2, hi2, -⟩ := InnerImpls.copy_spec hc2
    refine ⟨st2, v1, ?_, hx.trans hx2, hobj2.trans hobj, hres2.trans hres, hi2.trans hi1,
      InnerImpls.copy_holds hc2 (InnerImpls.copy_holds hc hh)⟩
    simp [assign, hd, hs, hidx, hc, hc2]

theorem isSharing_congr {st st1 : State} {a b x y : Nat} (ha : st1.object a = st.object b)
    (hx : st1.object x = st.object y) : isSharing st1 a x = isSharing st b y := by
  unfold isSharing; rw [ha, hx]

theorem read_congr {st st1 : State} {a : Nat} (hs : st1.slack = st.slack)
    (hh : st1.heap = st.heap) (hr : st1.resources = st.resources)
    (ho : st1.object a = st.object a) :
    length st1 a = length st a ∧ ∀ j, byteAt st1 a j = byteAt st a j := by
  have hres : ∀ p, st1.resource p = st.resource p := fun p => by simp [State.resource, hr]
  have hview : ∀ p, st1.view p = st.view p := fun p => by simp [State.view, hh, hs]
  refine ⟨by simp [length, ho, hres], fun j => ?_⟩
  have hd : data st1 a = data st a := by simp [data, ho, hres]
  unfold byteAt
  rw [hd]
  cases hp : data st a with
  | error e => rfl
  | ok p =>
    cases p with
    | heap b o => simp [load, hview]
    | inline c o =>
      have hc : c = a := by
        unfold data at hp
        cases hv : st.object a with
        | error e => simp [hv] at hp
        | ok v =>
          cases v with
          | monostate => simp [hv] at hp
          | eagerCopy e => simp [hv] at hp
          | shortStringOpt s => simp [hv] at hp; exact hp.1.symm
          | copyOnWrite cw =>
            simp only [hv] at hp
            cases hq : st.resource cw.res <;> simp [hq] at hp
      subst hc
      simp [load, ho]


theorem memcpyBuf_eq_cap (buf src : List Byte) (n : Nat) :
    memcpyBuf buf src n = memcpyBufCap topThreshold buf src n := rfl

theorem ShortStringOptImpl.ofCStr_eq_cap (str : List Byte) :
    ShortStringOptImpl.ofCStr str = ShortStringOptImpl.ofCStrCap topThreshold str := rfl

theorem ShortStringOptImpl.copy_eq_cap (rhs : ShortStringOptImpl) :
    rhs.copy = rhs.copyCap topThreshold := rfl

theorem ShortStringOptImpl.assign_eq_cap (self rhs : ShortStringOptImpl) (same : Bool) :
    self.assign rhs same = self.assignCap topThreshold rhs same := rfl

theorem ShortStringOptImpl.ofCStrCap_fits {cap n : Nat} {str : List Byte}
    (hs : strlen str = some n) (hn : n ≤ cap) :
    ∃ s, ShortStringOptImpl.ofCStrCap cap str = .ok s ∧ s.size = n ∧ s.buf = str.take n ∧
      s.Fits cap := by
  have hle : n ≤ str.length := Nat.le_of_lt (strlen_lt hs)
  refine ⟨{ size := n, buf := str.take n }, ?_, rfl, rfl, ?_⟩
  · simp [ShortStringOptImpl.ofCStrCap, cStrlen, hs, memcpyBufCap, hn, hle]
  · simp [ShortStringOptImpl.Fits, hle, hn]

theorem ShortStringOptImpl.copyCap_fits {cap : Nat} {r : ShortStringOptImpl} (hr : r.Fits cap) :
    ∃ s, r.copyCap cap = .ok s ∧ s.size = r.size ∧ s.buf = r.buf.take r.size ∧ s.Fits cap := by
  have h1 : r.size ≤ cap := Nat.le_trans hr.1 hr.2
  refine ⟨{ size := r.size, buf := r.buf.take r.size }, ?_, rfl, rfl, ?_⟩
  · simp [ShortStringOptImpl.copyCap, memcpyBufCap, h1, hr.1]
  · simp [ShortStringOptImpl.Fits, hr.1, h1]

theorem ShortStringOptImpl.assignCap_fits {cap : Nat} {s r : ShortStringOptImpl} (same : Bool)
    (hs : s.Fits cap) (hr : r.Fits cap) :
    ∃ s1, s.assignCap cap r same = .ok s1 ∧ s1.Fits cap := by
  cases same with
  | true => exact ⟨s, rfl, hs⟩
  | false =>
    have h1 : r.size ≤ cap := Nat.le_trans hr.1 hr.2
    refine ⟨{ size := r.size, buf := r.buf.take r.size ++ s.buf.drop r.size }, ?_, ?_⟩
    · simp [ShortStringOptImpl.assignCap, memcpyBufCap, h1, hr.1]
    · have h2 := hr.1
      have h3 := hs.2
      simp only [ShortStringOptImpl.Fits, List.length_append, List.length_take,
        List.length_drop]
      omega

theorem eager_start_lt {st : State} {a : Nat} {e : EagerCopyImpl} (hwf : st.WF)
    (h : st.objects[a]? = some (.eagerCopy e)) : e.start < st.heap.length := by
  have hv := hwf.objects _ (mem_of_getElem? h)
  obtain ⟨blk, hb, -⟩ := hasBlock_iff.1 hv.1
  exact (List.getElem?_eq_some_iff.1 hb).1

theorem State.Unaliased.append {st st1 : State} {v : InnerImpls} (hu : st.Unaliased)
    (hwf : st.WF) (hv : ∀ e1, v = .eagerCopy e1 → st.heap.length ≤ e1.start)
    (hobj : st1.objects = st.objects ++ [v]) : st1.Unaliased := by
  intro a b ea eb hab ha hb
  rw [hobj] at ha hb
  have get : ∀ (x : Nat) (e : EagerCopyImpl), (st.objects ++ [v])[x]? = some (.eagerCopy e) →
      st.objects[x]? = some (.eagerCopy e) ∨ (x = st.objects.length ∧ v = .eagerCopy e) := by
    intro x e hx
    by_cases hlt : x < st.objects.length
    · left; rwa [List.getElem?_append_left hlt] at hx
    · right
      rw [List.getElem?_append_right (by omega)] at hx
      have hx0 : x - st.objects.length = 0 := by
        by_contra hne
        have : 1 ≤ x - st.objects.length := by omega
        rw [List.getElem?_eq_none (by simpa using this)] at hx
        exact absurd hx (by simp)
      rw [hx0] at hx
      simp at hx
      exact ⟨by omega, hx⟩
  rcases get a ea ha with ha' | ⟨ha1, ha2⟩ <;> rcases get b eb hb with hb' | ⟨hb1, hb2⟩
  · exact hu a b ea eb hab ha' hb'
  · have := eager_start_lt hwf ha'
    have := hv eb hb2
    omega
  · have := eager_start_lt hwf hb'
    have := hv ea ha2
    omega
  · omega

theorem State.Unaliased.set {st st1 : State} {d : Nat} {v : InnerImpls} (hu : st.Unaliased)
    (hwf : st.WF)
    (hv : ∀ e1, v = .eagerCopy e1 →
      st.heap.length ≤ e1.start ∨ st.objects[d]? = some (.eagerCopy e1))
    (hobj : st1.objects = st.objects.set d v) : st1.Unaliased := by
  intro a b ea eb hab ha hb
  rw [hobj, List.getElem?_set] at ha hb
  by_cases had : d = a
  · subst had
    have hbd : ¬ d = b := hab
    simp only [hbd, if_false] at hb
    simp only [if_true] at ha
    by_cases hlt : d < st.objects.length
    · simp only [hlt, if_true, Option.some.injEq] at ha
      rcases hv ea ha with h1 | h1
      · have := eager_start_lt hwf hb; omega
      · exact hu d b ea eb hab h1 hb
    · simp [hlt] at ha
  · simp only [had, if_false] at ha
    by_cases hbd : d = b
    · subst hbd
      simp only [if_true] at hb
      by_cases hlt : d < st.objects.length
      · simp only [hlt, if_true, Option.some.injEq] at hb
        rcases hv eb hb with h1 | h1
        · have := eager_start_lt hwf ha; omega
        · exact hu a d ea eb hab ha h1
      · simp [hlt] at hb
    · simp only [hbd, if_false] at hb
      exact hu a b ea eb hab ha hb

theorem State.Unaliased.of_same_objects {st st1 : State} (hu : st.Unaliased)
    (hobj : st1.objects = st.objects) : st1.Unaliased := by
  intro a b ea eb hab ha hb
  rw [hobj] at ha hb
  exact hu a b ea eb hab ha hb

theorem InnerImpls.copy_fresh {st st1 : State} {v : InnerImpls} {e1 : EagerCopyImpl}
    (h : v.copy st = .ok (st1, .eagerCopy e1)) : e1.start = st.heap.length := by
  cases v with
  | monostate => simp [InnerImpls.copy] at h
  | copyOnWrite c => simp [InnerImpls.copy] at h
  | shortStringOpt s =>
    simp only [InnerImpls.copy] at h
    cases hc : s.copy <;> simp [hc] at h
  | eagerCopy e =>
    simp only [InnerImpls.copy] at h
    cases hc : e.copy st with
    | error err => simp [hc] at h
    | ok res =>
      obtain ⟨st2, e2⟩ := res
      simp [hc] at h
      obtain ⟨-, rfl⟩ := h
      obtain ⟨blk, -, -, -, rfl⟩ := EagerCopyImpl.copy_ok.1 hc
      rfl

theorem InnerImpls.assignSame_fresh {st st1 : State} {v r : InnerImpls} {same : Bool}
    {e1 : EagerCopyImpl} (h : InnerImpls.assignSame st same v r = .ok (st1, .eagerCopy e1)) :
    e1.start = st.heap.length ∨ v = .eagerCopy e1 := by
  cases v <;> cases r <;>
    first
    | (simp only [InnerImpls.assignSame, Except.ok.injEq, Prod.mk.injEq] at h
       exact Or.inr h.2)
    | skip
  · rename_i e r
    cases same with
    | true =>
      simp [InnerImpls.assignSame, EagerCopyImpl.assign] at h
      exact Or.inr (by rw [h.2])
    | false =>
      left
      have hc : (InnerImpls.eagerCopy r).copy st = .ok (st1, .eagerCopy e1) := by
        simp only [InnerImpls.assignSame, EagerCopyImpl.assign] at h
        simpa [InnerImpls.copy, EagerCopyImpl.copy] using h
      exact InnerImpls.copy_fresh hc
  · simp [InnerImpls.assignSame] at h
  · rename_i s r
    simp only [InnerImpls.assignSame] at h
    cases hc : s.assign r same <;> simp [hc] at h

theorem construct_unaliased {st st1 : State} {str : List Byte} {a : Nat} (hu : st.Unaliased)
    (hwf : st.WF) (h : construct st str = .ok (st1, a)) : st1.Unaliased := by
  obtain ⟨n, hs⟩ := construct_ok_strlen h
  rw [construct_of_strlen st hs] at h
  simp only [Except.ok.injEq] at h
  split at h
  · simp only [Prod.mk.injEq] at h; obtain ⟨rfl, -⟩ := h
    exact hu.append hwf (fun e1 he => by simp at he) rfl
  · split at h
    · simp only [Prod.mk.injEq] at h; obtain ⟨rfl, -⟩ := h
      refine hu.append hwf (fun e1 he => ?_) rfl
      simp only [InnerImpls.eagerCopy.injEq] at he
      rw [← he]; exact Nat.le_succ _
    · simp only [Prod.mk.injEq] at h; obtain ⟨rfl, -⟩ := h
      exact hu.append hwf (fun e1 he => by simp at he) rfl

theorem copyConstruct_unaliased {st st1 : State} {rhs a : Nat} (hu : st.Unaliased)
    (hwf : st.WF) (h : copyConstruct st rhs = .ok (st1, a)) : st1.Unaliased := by
  obtain ⟨r, v, -, -, -, hobj, -, -, -, st2, hc, -⟩ := copyConstruct_spec h
  refine hu.append hwf (fun e1 he => ?_) hobj
  subst he
  exact Nat.le_of_eq (InnerImpls.copy_fresh hc).symm

theorem assign_unaliased {st st1 : State} {self rhs : Nat} (hu : st.Unaliased)
    (hwf : st.WF) (h : assign st self rhs = .ok st1) : st1.Unaliased := by
  obtain ⟨v, r, v1, st2, hv, -, -, -, -, hst, -, hne, heq⟩ := assign_spec h
  refine hu.set (d := self) (v := v1) hwf (fun e1 he => ?_) (by rw [hst])
  subst he
  by_cases hidx : v.index = r.index
  · rcases InnerImpls.assignSame_fresh (heq hidx) with h1 | h1
    · exact Or.inl (Nat.le_of_eq h1.symm)
    · right; rw [hv, h1]
  · obtain ⟨st3, tmp, hc1, hc2⟩ := hne hidx
    left
    rw [InnerImpls.copy_fresh hc2]
    exact (InnerImpls.copy_spec hc1).1.heap_length

theorem subscript_unaliased {st st1 : State} {self i : Nat} {p : Ptr} (hu : st.Unaliased)
    (hwf : st.WF) (h : subscript st self i = .ok (st1, p)) : st1.Unaliased := by
  cases ho : st.objects[self]? with
  | none => simp [subscript, State.object, ho] at h
  | some v =>
    by_cases hk : v.index = 2
    · cases v with
      | copyOnWrite c =>
        obtain ⟨r, blk, n, -, -, -, -, rfl, -⟩ := subscript_shared_ok ho h
        exact hu.set (d := self) hwf (fun e1 he => by simp at he) rfl
      | _ => simp [InnerImpls.index] at hk
    · rw [(subscript_other_ok ho hk h).1]
      exact hu

theorem store_unaliased {st st1 : State} {p : Ptr} {c : Byte} (hu : st.Unaliased)
    (hwf : st.WF) (h : store st p c = .ok st1) : st1.Unaliased := by
  cases p with
  | heap b o =>
    obtain ⟨blk, -, -, rfl⟩ := store_heap_ok h
    exact hu.of_same_objects rfl
  | inline a o =>
    obtain ⟨s, -, -, rfl⟩ := store_inline_ok h
    exact hu.set (d := a) hwf (fun e1 he => by simp at he) rfl

theorem write_unaliased {st st1 : State} {self i : Nat} {c : Byte} (hu : st.Unaliased)
    (hwf : st.WF) (h : write st self i c = .ok st1) : st1.Unaliased := by
  unfold write at h
  cases hs : subscript st self i with
  | error e => simp [hs] at h
  | ok res =>
    obtain ⟨st2, p⟩ := res
    simp only [hs] at h
    exact store_unaliased (subscript_unaliased hu hwf hs) (subscript_wf hwf hs) h

theorem Reachable.unaliased {st : State} (h : Reachable st) : st.Unaliased := by
  induction h with
  | init slack => intro a b ea eb _ ha; simp [State.init] at ha
  | defaultConstruct hr ih =>
    exact ih.append hr.wf (fun e1 he => by simp at he) rfl
  | construct hr h ih => exact construct_unaliased ih hr.wf h
  | copyConstruct hr h ih => exact copyConstruct_unaliased ih hr.wf h
  | assign hr h ih => exact assign_unaliased ih hr.wf h
  | subscript hr h ih => exact subscript_unaliased ih hr.wf h
  | write hr h ih => exact write_unaliased ih hr.wf h

theorem write_frame {st st1 : State} {a b i : Nat} {c : Byte} {va vb : InnerImpls}
    (hu : st.Unaliased) (hab : a ≠ b) (ha : st.object a = .ok va)
    (hka : va.kind ≠ .shared) (hb : st.object b = .ok vb) (hkb : vb.kind ≠ .shared)
    (hw : write st b i c = .ok st1) : Unchanged st st1 a := by
  unfold write at hw
  cases hs : subscript st b i with
  | error e => simp [hs] at hw
  | ok res =>
    obtain ⟨st2, p⟩ := res
    simp only [hs] at hw
    have hidx : vb.index ≠ 2 := by
      cases vb <;> simp [InnerImpls.index, InnerImpls.kind] at hkb ⊢
    obtain ⟨rfl, hcase⟩ := subscript_other_ok (object_ok.1 hb) hidx hs
    rcases hcase with ⟨eb, rfl, -, rfl⟩ | ⟨sb, rfl, -, rfl⟩
    · obtain ⟨blk, hblk, -, rfl⟩ := store_heap_ok hw
      have hoa : State.object { st2 with heap := st2.heap.set eb.start (blk.set i c) } a =
          st2.object a := rfl
      refine ⟨hoa, ?_, fun j => ?_⟩
      · cases va with
        | copyOnWrite ca => simp [InnerImpls.kind] at hka
        | _ => simp [length, hoa, ha]
      · cases va with
        | monostate => simp [byteAt, data, hoa, ha]
        | copyOnWrite ca => simp [InnerImpls.kind] at hka
        | shortStringOpt sa => simp [byteAt, data, hoa, ha, load]
        | eagerCopy ea =>
          have hne : ea.start ≠ eb.start :=
            hu a b ea eb hab (object_ok.1 ha) (object_ok.1 hb)
          simp [byteAt, data, hoa, ha, load, State.view, List.getElem?_set, Ne.symm hne]
    · obtain ⟨s, -, -, rfl⟩ := store_inline_ok hw
      exact ⟨object_set_ne hab, read_congr rfl rfl rfl (object_set_ne hab)⟩
theorem write_returns_unshared {st : State} {b i n : Nat} {vb : InnerImpls} (c : Byte)
    (hwf : st.WF) (hb : st.object b = .ok vb) (hkb : vb.kind ≠ .shared)
    (hl : length st b = .ok n) (hi : i < n) : ∃ st1, write st b i c = .ok st1 := by
  have hv := hwf.objects vb (mem_of_getElem? (object_ok.1 hb))
  unfold length at hl
  simp only [hb] at hl
  cases vb with
  | monostate => simp at hl
  | copyOnWrite cb => simp [InnerImpls.kind] at hkb
  | eagerCopy e =>
    simp at hl; subst hl
    obtain ⟨blk, hblk, hlen⟩ := hasBlock_iff.1 hv.1
    have hi' : i < blk.length := by omega
    simp [write, subscript, hb, EagerCopyImpl.subscript, hi, store, hblk, hi']
  | shortStringOpt s =>
    simp at hl; subst hl
    have hi' : i < s.buf.length := Nat.lt_of_lt_of_le hi hv.1
    simp [write, subscript, hb, ShortStringOptImpl.subscript, hi, store, hi']

theorem independent_of_unshared {st : State} {a b : Nat} {va vb : InnerImpls}
    (hu : st.Unaliased) (hab : a ≠ b) (ha : st.object a = .ok va) (hka : va.kind ≠ .shared)
    (hb : st.object b = .ok vb) (hkb : vb.kind ≠ .shared) : Independent st a b :=
  fun _ _ _ => ⟨write_frame hu hab ha hka hb hkb, write_frame hu (Ne.symm hab) hb hkb ha hka⟩

theorem kind_not_shared {v : InnerImpls} (h : v.kind = .inline ∨ v.kind = .exclusive) :
    v.kind ≠ .shared := by
  rcases h with h | h <;> rw [h] <;> decide


theorem cow_write_frame {st : State} {a b : Nat} (i : Nat) (c : Byte) (hab : a ≠ b)
    (hs : isSharing st a b = .ok true) :
    (∀ st1, write st a i c = .ok st1 →
      length st1 b = length st b ∧ ∀ j, byteAt st1 b j = byteAt st b j) ∧
    (Reachable st → (∃ n, length st a = .ok n ∧ i < n) →
      (∀ ca r, st.object a = .ok (.copyOnWrite ca) → st.resource ca.res = .ok r →
        (0 : Byte) ∈ st.slack r.start) →
      (∀ j, j ≤ i → byteAt st a j ≠ .ok 0) → ∃ st1, write st a i c = .ok st1) := by
  refine ⟨fun st1 hw => ?_, fun hr hn hz hnz => ?_⟩
  · obtain ⟨ca, cb, ha, hb, hres⟩ := isSharing_true_iff.1 hs
    unfold write at hw
    cases hsub : subscript st a i with
    | error e => simp [hsub] at hw
    | ok res =>
      obtain ⟨st2, p⟩ := res
      simp only [hsub] at hw
      obtain ⟨r, blk, n, hr, -, hblk, -, rfl, rfl⟩ := subscript_shared_ok (object_ok.1 ha) hsub
      obtain ⟨blk2, -, -, rfl⟩ := store_heap_ok hw
      have hrlt : cb.res < st.resources.length := by
        rw [← hres]; exact (List.getElem?_eq_some_iff.1 hr).1
      have hslt : r.start < st.heap.length := (List.getElem?_eq_some_iff.1 hblk).1
      have hr' : st.resources[cb.res]? = some r := by rw [← hres]; exact hr
      have hb' := object_ok.1 hb
      have hne : r.start ≠ st.heap.length := by omega
      constructor
      · simp [length, State.object, State.resource, List.getElem?_set, hab, hb',
          List.getElem?_append_left hrlt, hr']
      · intro j
        simp [byteAt, data, load, State.object, State.resource, State.view, List.getElem?_set,
          hab, hb', List.getElem?_append_left hrlt, hr', List.getElem?_append_left hslt, hblk,
          Ne.symm hne]
  · obtain ⟨n, hl, hi⟩ := hn
    exact write_returns c hr.wf hl hi hz hnz

theorem construct_shared_holds (st : State) (s rest : List Byte) (h : ∀ b ∈ s, b ≠ 0)
    (hl : bottomThreshold < s.length) :
    ∃ st1 c, construct st (s ++ 0 :: rest) = .ok (st1, st.objects.length) ∧ st.Ext st1 ∧
      st1.objects = st.objects ++ [.copyOnWrite c] ∧ (InnerImpls.copyOnWrite c).Holds st1 s := by
  refine ⟨_, ⟨st.resources.length⟩, construct_shared st s rest h hl,
    ⟨rfl, ⟨_, rfl⟩, ⟨_, rfl⟩⟩, rfl, ?_⟩
  exact ⟨_, List.getElem?_concat_length _ _, List.getElem?_concat_length _ _, rfl⟩

theorem data_of_byteAt {st : State} {a j : Nat} {x : Byte} (h : byteAt st a j = .ok x) :
    ∃ p, data st a = .ok p ∧ load st p j = .ok x := by
  unfold byteAt at h
  cases hd : data st a with
  | error e => simp [hd] at h
  | ok p => exact ⟨p, rfl, by simpa [hd] using h⟩

theorem equals_wrapped_true {st : State} {a b n : Nat} (hab : a ≠ b)
    (hla : length st a = .ok n) (hlb : length st b = .ok n) (hn : 2147483647 < n)
    (hx : ∀ j, j ≤ 2147483647 → ∃ x, byteAt st a j = .ok x)
    (he : ∀ j, j ≤ 2147483647 → byteAt st a j = byteAt st b j) :
    equals st a b = .ok true := by
  obtain ⟨x0, hx0⟩ := hx 0 (by omega)
  obtain ⟨pa, hpa, -⟩ := data_of_byteAt hx0
  obtain ⟨pb, hpb, -⟩ := data_of_byteAt ((he 0 (by omega)).symm.trans hx0)
  have hloop := equalsLoop_wrapped st pa pb n 0 (by omega) (by omega)
    (fun j _ hj => by
      obtain ⟨x, hxj⟩ := hx j hj
      exact ⟨x, by simpa [byteAt, hpa] using hxj⟩)
    (fun j _ hj => by
      have := he j hj
      simpa [byteAt, hpa, hpb] using this)
  simpa [equals, hab, hla, hlb, hpa, hpb] using hloop

theorem demoHugeA_length : demoHugeA.length = 2147483656 :=
  List.length_replicate _ _

theorem demoHugeB_length : demoHugeB.length = 2147483656 :=
  (List.length_set _ _ _).trans demoHugeA_length

theorem demoHugeA_nonzero : ∀ b ∈ demoHugeA, b ≠ 0 := by
  intro b hb
  rw [List.eq_of_mem_replicate hb]
  decide

theorem demoHugeB_nonzero : ∀ b ∈ demoHugeB, b ≠ 0 := by
  intro b hb
  rcases List.mem_or_eq_of_mem_set hb with h | h
  · exact demoHugeA_nonzero b h
  · rw [h]; decide

theorem demoHugeA_get (j : Nat) (hj : j < demoHugeA.length) : demoHugeA.get ⟨j, hj⟩ = 97 :=
  List.getElem_replicate _ _

theorem demoHugeB_get_ne (j : Nat) (hj : j < demoHugeB.length) (hne : 2147483655 ≠ j) :
    demoHugeB.get ⟨j, hj⟩ = 97 := by
  show (demoHugeA.set 2147483655 98)[j] = 97
  rw [List.getElem_set_ne hne]
  exact List.getElem_replicate _ _

theorem demoHugeB_get_eq (hj : 2147483655 < demoHugeB.length) :
    demoHugeB.get ⟨2147483655, hj⟩ = 98 := by
  show (demoHugeA.set 2147483655 98)[2147483655] = 98
  exact List.getElem_set_self _


/-- C1: for every byte string `s` without a zero byte, passed as a C string (`s`,
a zero byte, then whatever follows in memory), the constructor returns an object
whose active alternative is Inline exactly when `s.length ≤ topThreshold`,
Exclusive exactly when `topThreshold < s.length ≤ bottomThreshold`, and Shared
exactly when `bottomThreshold < s.length`, with `topThreshold = 16` and
`bottomThreshold = 255`; so the lengths 16, 17, 255 and 256 give Inline,
Exclusive, Exclusive and Shared. -/
theorem construct_selects_representation (st : State) (s rest : List Byte)
    (h : ∀ b ∈ s, b ≠ 0) :
    ∃ st1 a v, construct st (s ++ 0 :: rest) = .ok (st1, a) ∧ st1.object a = .ok v ∧
      (v.kind = .inline ↔ s.length ≤ topThreshold) ∧
      (v.kind = .exclusive ↔ topThreshold < s.length ∧ s.length ≤ bottomThreshold) ∧
      (v.kind = .shared ↔ bottomThreshold < s.length) ∧
      topThreshold = 16 ∧ bottomThreshold = 255 ∧
      (s.length = 16 → v.kind = .inline) ∧ (s.length = 17 → v.kind = .exclusive) ∧
      (s.length = 255 → v.kind = .exclusive) ∧ (s.length = 256 → v.kind = .shared) := by
  by_cases h1 : s.length ≤ topThreshold
  · refine ⟨_, _, .shortStringOpt ⟨s.length, s⟩, construct_inline st s rest h h1, ?_, ?_⟩
    · simp [State.object]
    · simp only [topThreshold, bottomThreshold] at h1 ⊢
      simp [InnerImpls.kind]
      omega
  · by_cases h2 : s.length ≤ bottomThreshold
    · refine ⟨_, _, .eagerCopy ⟨s.length, s.length, st.heap.length + 1⟩,
        construct_exclusive st s rest h (by omega) h2, ?_, ?_⟩
      · simp [State.object]
      · simp only [topThreshold, bottomThreshold] at h1 h2 ⊢
        simp [InnerImpls.kind]
        omega
    · refine ⟨_, _, .copyOnWrite ⟨st.resources.length⟩,
        construct_shared st s rest h (by omega), ?_, ?_⟩
      · simp [State.object]
      · simp only [topThreshold, bottomThreshold] at h1 h2 ⊢
        simp [InnerImpls.kind]
        omega

theorem construct_selects_representation_witness :
    ∃ st1 a v, construct (State.init fun _ => []) ([104, 105] ++ 0 :: []) = .ok (st1, a) ∧
      st1.object a = .ok v ∧
      (v.kind = .inline ↔ [(104 : Byte), 105].length ≤ topThreshold) ∧
      (v.kind = .exclusive ↔
        topThreshold < [(104 : Byte), 105].length ∧ [(104 : Byte), 105].length ≤ bottomThreshold) ∧
      (v.kind = .shared ↔ bottomThreshold < [(104 : Byte), 105].length) ∧
      topThreshold = 16 ∧ bottomThreshold = 255 ∧
      ([(104 : Byte), 105].length = 16 → v.kind = .inline) ∧
      ([(104 : Byte), 105].length = 17 → v.kind = .exclusive) ∧
      ([(104 : Byte), 105].length = 255 → v.kind = .exclusive) ∧
      ([(104 : Byte), 105].length = 256 → v.kind = .shared) :=
  construct_selects_representation (State.init fun _ => []) [104, 105] [] (by simp)

/-- C2: for every byte string `s` without a zero byte, passed as a C string, the
constructed object has length `s.length`, and byte `i` read through `data()` is
byte `i` of `s` for every `i` below the length; this holds for each of the three
representations. -/
theorem construct_round_trip (st : State) (s rest : List Byte) (h : ∀ b ∈ s, b ≠ 0) :
    ∃ st1 a, construct st (s ++ 0 :: rest) = .ok (st1, a) ∧
      length st1 a = .ok s.length ∧
      ∀ (i : Nat) (hi : i < s.length), byteAt st1 a i = .ok (s.get ⟨i, hi⟩) := by
  by_cases h1 : s.length ≤ topThreshold
  · refine ⟨_, _, construct_inline st s rest h h1, ?_, ?_⟩
    · simp [length, State.object]
    · intro i hi
      simp [byteAt, data, load, State.object, hi]
  · by_cases h2 : s.length ≤ bottomThreshold
    · refine ⟨_, _, construct_exclusive st s rest h (by omega) h2, ?_, ?_⟩
      · simp [length, State.object]
      · intro i hi
        have hv : (st.heap ++ [s, s])[st.heap.length + 1]? = some s := by
          rw [List.getElem?_append_right (by omega), Nat.add_sub_cancel_left]; rfl
        simp [byteAt, data, load, State.object, State.view, hv, hi, List.getElem?_append_left]
    · refine ⟨_, _, construct_shared st s rest h (by omega), ?_, ?_⟩
      · simp [length, State.object, State.resource]
      · intro i hi
        simp [byteAt, data, load, State.object, State.view, State.resource, hi,
          List.getElem?_append_right, List.getElem?_append_left]

theorem construct_round_trip_witness :
    ∃ st1 a, construct (State.init fun _ => []) ([104, 105] ++ 0 :: []) = .ok (st1, a) ∧
      length st1 a = .ok [(104 : Byte), 105].length ∧
      ∀ (i : Nat) (hi : i < [(104 : Byte), 105].length),
        byteAt st1 a i = .ok ([(104 : Byte), 105].get ⟨i, hi⟩) :=
  construct_round_trip (State.init fun _ => []) [104, 105] [] (by simp)

/-- C3: in every reachable state and for every object `a` that has a length `n`
(so `a` is Inline, Exclusive or Shared), `operator[]` throws `std::out_of_range`
exactly when `n ≤ i`; in particular it throws at `i = n` and at every `i > n`.
When `i < n` the access returns, provided that for a Shared `a` the memory behind
its buffer holds a zero byte (the access runs `std::strlen` on the unterminated
buffer); in particular the access at `n - 1` returns when `0 < n`. -/
theorem subscript_range_check {st : State} {a n : Nat} (i : Nat) (hr : Reachable st)
    (hl : length st a = .ok n) :
    (subscript st a i = .error .outOfRange ↔ n ≤ i) ∧
    subscript st a n = .error .outOfRange ∧
    (n < i → subscript st a i = .error .outOfRange) ∧
    ((∀ c r, st.object a = .ok (.copyOnWrite c) → st.resource c.res = .ok r →
        (0 : Byte) ∈ st.slack r.start) →
      (i < n → ∃ st1 p, subscript st a i = .ok (st1, p)) ∧
      (0 < n → ∃ st1 p, subscript st a (n - 1) = .ok (st1, p))) := by
  refine ⟨subscript_outOfRange_iff hl, (subscript_outOfRange_iff hl).2 (Nat.le_refl n),
    fun h => (subscript_outOfRange_iff hl).2 (Nat.le_of_lt h), fun hz => ⟨?_, ?_⟩⟩
  · exact fun hi => subscript_succeeds hr.wf hz hl hi
  · exact fun hn => subscript_succeeds hr.wf hz hl (by omega)

theorem subscript_range_check_witness :
    (subscript demoInline 0 1 = .error .outOfRange ↔ 2 ≤ 1) ∧
    subscript demoInline 0 2 = .error .outOfRange ∧
    (2 < 1 → subscript demoInline 0 1 = .error .outOfRange) ∧
    ((∀ c r, demoInline.object 0 = .ok (.copyOnWrite c) → demoInline.resource c.res = .ok r →
        (0 : Byte) ∈ demoInline.slack r.start) →
      (1 < 2 → ∃ st1 p, subscript demoInline 0 1 = .ok (st1, p)) ∧
      (0 < 2 → ∃ st1 p, subscript demoInline 0 (2 - 1) = .ok (st1, p))) :=
  subscript_range_check 1 demoInline_reachable rfl

set_option maxRecDepth 100000 in
/-- C4: the code at the failing input.  Object 0 of `demoShared` is Shared, built
from 256 bytes `a`.  The write `v[5] = 0` returns and leaves the length at 256.
The next write `v[3] = 'c'` returns too, but the private copy it makes is
measured by `std::strlen`, which stops at the zero byte: afterwards the length
of `v` is 5, not 256, and its buffer holds 5 bytes.  A write `v[7] = 'c'` in the
place of `v[3] = 'c'` passes the bounds check against the old length and then
lands outside the block of 5 bytes. -/
theorem write_after_zero_byte_shortens :
    ∃ st1 st2, write demoShared 0 5 0 = .ok st1 ∧ length st1 0 = .ok 256 ∧
      byteAt st1 0 5 = .ok 0 ∧ byteAt st1 0 6 = .ok 97 ∧
      write st1 0 3 99 = .ok st2 ∧ length st2 0 = .ok 5 ∧
      byteAt st2 0 3 = .ok 99 ∧ st2.heap[2]? = some [97, 97, 97, 99, 97] ∧
      write st1 0 7 99 = .error .undefined :=
  ⟨_, _, rfl, rfl, rfl, rfl, rfl, rfl, rfl, rfl, rfl⟩

set_option maxRecDepth 100000 in
/-- C5: the code at the failing input.  Object 0 of `demoShared` is `A`, Shared,
built from 256 bytes `a`.  After `A[5] = 0` the object `B` is copy-constructed
from `A`: `B` is a new object, `isSharing(A, B)` is true and both have length
256.  The access `A[7]` passes the bounds check against 256, but the private
copy it makes is measured by `std::strlen` and holds 5 bytes, so the pointer it
returns lies outside that block and the write `A[7] = 'c'` does not land in the
buffer of `A`: the model has no state after it. -/
theorem write_lands_outside_private_copy :
    ∃ st1 st2 b st3, write demoShared 0 5 0 = .ok st1 ∧
      copyConstruct st1 0 = .ok (st2, b) ∧ b ≠ 0 ∧
      isSharing st2 0 b = .ok true ∧ length st2 0 = .ok 256 ∧ length st2 b = .ok 256 ∧
      subscript st2 0 7 = .ok (st3, .heap 2 7) ∧ st3.heap[2]? = some [97, 97, 97, 97, 97] ∧
      write st2 0 7 99 = .error .undefined :=
  ⟨_, _, _, _, rfl, rfl, by decide, rfl, rfl, rfl, rfl, rfl, rfl⟩

/-- C6: in a reachable state let `a` be Shared and let the access `a[i]` return.
Then `a` holds the resource the access allocated, whose address no object held
before, and `isSharing(a, x)` is false for every other object `x` that existed
before the access, whatever `x` shared before. -/
theorem subscript_detaches {st st1 : State} {a i : Nat} {c : CopyOnWriteImpl} {p : Ptr}
    (hr : Reachable st) (ho : st.object a = .ok (.copyOnWrite c))
    (h : subscript st a i = .ok (st1, p)) :
    st1.object a = .ok (.copyOnWrite { res := st.resources.length }) ∧
    st1.resources.length = st.resources.length + 1 ∧
    (∀ x cx, st.object x = .ok (.copyOnWrite cx) → cx.res < st.resources.length) ∧
    ∀ x, x ≠ a → x < st.objects.length → isSharing st1 a x = .ok false := by
  obtain ⟨r, blk, n, -, -, -, -, rfl, -⟩ := subscript_shared_ok (object_ok.1 ho) h
  have hold : ∀ x cx, st.object x = .ok (.copyOnWrite cx) → cx.res < st.resources.length :=
    fun x cx hx => hr.wf.objects _ (mem_of_getElem? (object_ok.1 hx))
  have ha : State.object
      { st with
          heap := st.heap ++ [(blk ++ st.slack r.start).take n]
          resources := st.resources ++ [{ size := n, capacity := n, start := st.heap.length }]
          objects := st.objects.set a (.copyOnWrite { res := st.resources.length }) } a =
      .ok (.copyOnWrite { res := st.resources.length }) := by
    simp [State.object, List.getElem?_set, object_lt ho]
  refine ⟨ha, by simp, hold, fun x hx hlt => ?_⟩
  obtain ⟨v, hv⟩ := object_of_lt hlt
  have hx1 : State.object
      { st with
          heap := st.heap ++ [(blk ++ st.slack r.start).take n]
          resources := st.resources ++ [{ size := n, capacity := n, start := st.heap.length }]
          objects := st.objects.set a (.copyOnWrite { res := st.resources.length }) } x =
      .ok v := by
    rw [← hv]; simp [State.object, List.getElem?_set, Ne.symm hx]
  cases v with
  | copyOnWrite cx =>
    rw [isSharing_shared ha hx1]
    have := hold x cx hv
    simp; omega
  | _ => exact isSharing_of_kind ha hx1 (Or.inr (by simp [InnerImpls.kind]))

theorem subscript_detaches_witness :
    demoPairDetached.object 0 = .ok (.copyOnWrite { res := demoPair.resources.length }) ∧
    demoPairDetached.resources.length = demoPair.resources.length + 1 ∧
    (∀ x cx, demoPair.object x = .ok (.copyOnWrite cx) → cx.res < demoPair.resources.length) ∧
    ∀ x, x ≠ 0 → x < demoPair.objects.length → isSharing demoPairDetached 0 x = .ok false :=
  subscript_detaches demoPair_reachable rfl demoPair_subscript

/-- C7: for every input of more than `bottomThreshold` bytes (none of them zero)
the constructed object `a` is Shared.  The copy constructor then returns a new
object `b`, different from `a` and added behind the objects there were; `b`
holds the same resource as `a`, so `isSharing(a, b)` is true; the copy allocates
no block and no resource. -/
theorem copy_of_shared_shares (st : State) (s rest : List Byte) (h : ∀ b ∈ s, b ≠ 0)
    (hl : bottomThreshold < s.length) :
    ∃ st1 a st2 b c, construct st (s ++ 0 :: rest) = .ok (st1, a) ∧
      st1.object a = .ok (.copyOnWrite c) ∧
      copyConstruct st1 a = .ok (st2, b) ∧
      b ≠ a ∧ b = st1.objects.length ∧ st2.objects = st1.objects ++ [.copyOnWrite c] ∧
      st2.object a = .ok (.copyOnWrite c) ∧ st2.object b = .ok (.copyOnWrite c) ∧
      isSharing st2 a b = .ok true ∧
      st2.heap = st1.heap ∧ st2.resources = st1.resources := by
  have hc := construct_shared st s rest h hl
  have ha : State.object
      { st with
          heap := st.heap ++ [s]
          resources := st.resources ++
            [{ size := s.length, capacity := s.length, start := st.heap.length }]
          objects := st.objects ++ [.copyOnWrite { res := st.resources.length }] }
      st.objects.length = .ok (.copyOnWrite { res := st.resources.length }) := by
    simp [State.object]
  refine ⟨_, _, _, _, _, hc, ha, copyConstruct_shared ha, ?_, rfl, rfl, ?_, ?_, ?_, rfl, rfl⟩
  · simp
  · exact object_append_left ha
  · exact object_append_new
  · apply isSharing_true_iff.2
    exact ⟨_, _, object_append_left ha, object_append_new, rfl⟩

set_option maxRecDepth 100000 in
theorem copy_of_shared_shares_witness :
    ∃ st1 a st2 b c, construct (State.init fun _ => [0]) (demoLong ++ 0 :: []) = .ok (st1, a) ∧
      st1.object a = .ok (.copyOnWrite c) ∧
      copyConstruct st1 a = .ok (st2, b) ∧
      b ≠ a ∧ b = st1.objects.length ∧ st2.objects = st1.objects ++ [.copyOnWrite c] ∧
      st2.object a = .ok (.copyOnWrite c) ∧ st2.object b = .ok (.copyOnWrite c) ∧
      isSharing st2 a b = .ok true ∧
      st2.heap = st1.heap ∧ st2.resources = st1.resources :=
  copy_of_shared_shares (State.init fun _ => [0]) demoLong []
    (by intro b hb; rw [List.eq_of_mem_replicate hb]; decide) (by decide)

/-- C8: let the source `s` be Shared and the destination `d` hold any other
alternative (Empty, Inline or Exclusive).  Then `d = s` returns, afterwards `d`
is Shared and holds the resource of `s`, `isSharing(d, s)` is true, and `d` shares
with every object that shared with `s` before. -/
theorem assign_shared_into_other {st : State} {d s : Nat} {v : InnerImpls}
    {c : CopyOnWriteImpl} (hs : st.object s = .ok (.copyOnWrite c)) (hd : st.object d = .ok v)
    (hk : v.kind ≠ .shared) :
    ∃ st1, assign st d s = .ok st1 ∧ st1.object d = .ok (.copyOnWrite c) ∧
      st1.object s = .ok (.copyOnWrite c) ∧
      isSharing st1 d s = .ok true ∧
      ∀ x, isSharing st s x = .ok true → isSharing st1 d x = .ok true := by
  have hidx : v.index ≠ (InnerImpls.copyOnWrite c).index := by
    cases v <;> simp [InnerImpls.index, InnerImpls.kind] at hk ⊢
  have hds : s ≠ d := by
    rintro rfl
    rw [hs] at hd
    simp only [Except.ok.injEq] at hd
    subst hd
    simp [InnerImpls.kind] at hk
  have hassign : assign st d s =
      .ok { st with objects := st.objects.set d (.copyOnWrite c) } := by
    simp [assign, hs, hd, hidx, InnerImpls.copy, CopyOnWriteImpl.copy]
  have hd1 : State.object { st with objects := st.objects.set d (.copyOnWrite c) } d =
      .ok (.copyOnWrite c) := object_set_self (object_lt hd)
  have hs1 : State.object { st with objects := st.objects.set d (.copyOnWrite c) } s =
      .ok (.copyOnWrite c) := by rw [object_set_ne hds]; exact hs
  refine ⟨_, hassign, hd1, hs1, isSharing_true_iff.2 ⟨c, c, hd1, hs1, rfl⟩, fun x hx => ?_⟩
  obtain ⟨cs, cx, hs', hx', hres⟩ := isSharing_true_iff.1 hx
  rw [hs] at hs'
  simp only [Except.ok.injEq, InnerImpls.copyOnWrite.injEq] at hs'
  subst hs'
  have hxd : x ≠ d := by
    rintro rfl
    rw [hd] at hx'
    simp only [Except.ok.injEq] at hx'
    subst hx'
    simp [InnerImpls.kind] at hk
  exact isSharing_true_iff.2 ⟨c, cx, hd1, by rw [object_set_ne hxd]; exact hx', hres⟩

theorem assign_shared_into_other_witness :
    ∃ st1, assign demoMixed 0 1 = .ok st1 ∧ st1.object 0 = .ok (.copyOnWrite { res := 0 }) ∧
      st1.object 1 = .ok (.copyOnWrite { res := 0 }) ∧
      isSharing st1 0 1 = .ok true ∧
      ∀ x, isSharing demoMixed 1 x = .ok true → isSharing st1 0 x = .ok true :=
  @assign_shared_into_other demoMixed 0 1 _ _ rfl rfl (by decide)

/-- C9: `isSharing(a, b)` is true exactly when both objects are Shared and hold
the same resource.  So it is false when either object holds another alternative,
false for two Shared objects with different resources, false for an Exclusive
object and its copy, and false for two objects constructed one after the other
from the same bytes, be they Exclusive or Shared. -/
theorem isSharing_characterisation :
    (∀ (st : State) (a b : Nat),
      isSharing st a b = .ok true ↔
        ∃ ca cb, st.object a = .ok (.copyOnWrite ca) ∧ st.object b = .ok (.copyOnWrite cb) ∧
          ca.res = cb.res) ∧
    (∀ (st : State) (a b : Nat) (x y : InnerImpls), st.object a = .ok x → st.object b = .ok y →
      (x.kind ≠ .shared ∨ y.kind ≠ .shared) → isSharing st a b = .ok false) ∧
    (∀ (st : State) (a b : Nat) (ca cb : CopyOnWriteImpl), st.object a = .ok (.copyOnWrite ca) →
      st.object b = .ok (.copyOnWrite cb) → ca.res ≠ cb.res → isSharing st a b = .ok false) ∧
    (∀ (st : State) (s rest : List Byte), (∀ x ∈ s, x ≠ 0) → topThreshold < s.length →
      s.length ≤ bottomThreshold →
      ∃ st1 a st2 b, construct st (s ++ 0 :: rest) = .ok (st1, a) ∧
        copyConstruct st1 a = .ok (st2, b) ∧ isSharing st2 a b = .ok false) ∧
    (∀ (st : State) (s rest rest1 : List Byte), (∀ x ∈ s, x ≠ 0) →
      ¬ s.length ≤ topThreshold →
      ∃ st1 a st2 b, construct st (s ++ 0 :: rest) = .ok (st1, a) ∧
        construct st1 (s ++ 0 :: rest1) = .ok (st2, b) ∧ isSharing st2 a b = .ok false) := by
  refine ⟨fun st a b => isSharing_true_iff, fun st a b x y ha hb hk => isSharing_of_kind ha hb hk,
    ?_, ?_, ?_⟩
  · intro st a b ca cb ha hb hne
    rw [isSharing_shared ha hb]; simp [hne]
  · intro st s rest h h1 h2
    have hc := construct_exclusive st s rest h h1 h2
    have ha : State.object
        { st with
            heap := st.heap ++ [s] ++ [s]
            objects := st.objects ++
              [.eagerCopy { size := s.length, capacity := s.length, start := st.heap.length + 1 }] }
        st.objects.length =
        .ok (.eagerCopy { size := s.length, capacity := s.length, start := st.heap.length + 1 }) :=
      object_append_new
    have hb : (st.heap ++ [s] ++ [s])[st.heap.length + 1]? = some s := by
      rw [List.append_assoc, List.getElem?_append_right (by omega), Nat.add_sub_cancel_left]; rfl
    refine ⟨_, _, _, _, hc, copyConstruct_exclusive ha hb (Nat.le_refl _), ?_⟩
    exact isSharing_of_kind (object_append_left ha) object_append_new
      (Or.inl (by simp [InnerImpls.kind]))
  · intro st s rest rest1 h h1
    by_cases h2 : s.length ≤ bottomThreshold
    · have hc := construct_exclusive st s rest h (by omega) h2
      refine ⟨_, _, _, _, hc, construct_exclusive _ s rest1 h (by omega) h2, ?_⟩
      exact isSharing_of_kind (object_of_objects_append rfl object_append_new)
        (object_of_objects_new rfl) (Or.inl (by simp [InnerImpls.kind]))
    · have hc := construct_shared st s rest h (by omega)
      refine ⟨_, _, _, _, hc, construct_shared _ s rest1 h (by omega), ?_⟩
      rw [isSharing_shared (object_of_objects_append rfl object_append_new)
        (object_of_objects_new rfl)]
      simp

/-- C10: the code at the failing input.  Two objects are built one after the
other from 2147483656 bytes each, all `a` but for a `b` at position 2147483655
of the second.  They are different objects of equal length whose bytes differ
at position 2147483655, and `operator==` returns true: its `int` counter never
reaches that position, `++i` at `INT_MAX` makes it negative and the loop ends. -/
theorem equals_misses_mismatch_past_intMax :
    ∃ st1 a st2 b, construct (State.init fun _ => [0]) (demoHugeA ++ 0 :: []) = .ok (st1, a) ∧
      construct st1 (demoHugeB ++ 0 :: []) = .ok (st2, b) ∧ a ≠ b ∧
      length st2 a = .ok 2147483656 ∧ length st2 b = .ok 2147483656 ∧
      byteAt st2 a 2147483655 = .ok 97 ∧ byteAt st2 b 2147483655 = .ok 98 ∧
      equals st2 a b = .ok true := by
  have hlA : bottomThreshold < demoHugeA.length := by
    rw [demoHugeA_length]; unfold bottomThreshold; omega
  have hlB : bottomThreshold < demoHugeB.length := by
    rw [demoHugeB_length]; unfold bottomThreshold; omega
  obtain ⟨st1, ca, hc1, hx1, hobj1, hh1⟩ :=
    construct_shared_holds (State.init fun _ => [0]) demoHugeA [] demoHugeA_nonzero hlA
  obtain ⟨st2, cb, hc2, hx2, hobj2, hh2⟩ :=
    construct_shared_holds st1 demoHugeB [] demoHugeB_nonzero hlB
  have ha1 : st1.object (State.init fun _ => [0]).objects.length = .ok (.copyOnWrite ca) :=
    object_of_objects_new hobj1
  have ha2 : st2.object (State.init fun _ => [0]).objects.length = .ok (.copyOnWrite ca) :=
    object_of_objects_append hobj2 ha1
  have hb2 : st2.object st1.objects.length = .ok (.copyOnWrite cb) :=
    object_of_objects_new hobj2
  have hra := (hh1.mono hx2).reads ha2
  have hrb := hh2.reads hb2
  have hne : (State.init fun _ => [0]).objects.length ≠ st1.objects.length := by
    rw [hobj1]; simp
  have hla : length st2 (State.init fun _ => [0]).objects.length = .ok 2147483656 := by
    rw [hra.1, demoHugeA_length]
  have hlb : length st2 st1.objects.length = .ok 2147483656 := by
    rw [hrb.1, demoHugeB_length]
  have hbyteA : ∀ j, j < 2147483656 →
      byteAt st2 (State.init fun _ => [0]).objects.length j = .ok 97 := by
    intro j hj
    have hj' : j < demoHugeA.length := by rw [demoHugeA_length]; exact hj
    rw [hra.2 j hj', demoHugeA_get]
  have hbyteB : ∀ j, j < 2147483656 → 2147483655 ≠ j →
      byteAt st2 st1.objects.length j = .ok 97 := by
    intro j hj hjne
    have hj' : j < demoHugeB.length := by rw [demoHugeB_length]; exact hj
    rw [hrb.2 j hj', demoHugeB_get_ne j hj' hjne]
  have hbyteB' : byteAt st2 st1.objects.length 2147483655 = .ok 98 := by
    have hj' : 2147483655 < demoHugeB.length := by rw [demoHugeB_length]; omega
    rw [hrb.2 2147483655 hj', demoHugeB_get_eq]
  refine ⟨st1, _, st2, _, hc1, hc2, hne, hla, hlb, hbyteA _ (by omega), hbyteB', ?_⟩
  refine equals_wrapped_true hne hla hlb (by omega) (fun j hj => ⟨97, hbyteA j (by omega)⟩)
    (fun j hj => ?_)
  rw [hbyteA j (by omega), hbyteB j (by omega) (by omega)]

/-- C11: `operator==` on an object and itself returns true: the comparison of the
addresses decides, no member of the object is read.  This holds for every
object, also for a default-constructed one, whose length is not defined. -/
theorem equals_reflexive :
    (∀ (st : State) (a : Nat), equals st a a = .ok true) ∧
    (∀ st : State, equals (defaultConstruct st).1 (defaultConstruct st).2 (defaultConstruct st).2 =
        .ok true ∧
      (defaultConstruct st).1.object (defaultConstruct st).2 = .ok .monostate ∧
      length (defaultConstruct st).1 (defaultConstruct st).2 = .error .undefined) := by
  refine ⟨fun st a => by simp [equals], fun st => ⟨by simp [equals], ?_, ?_⟩⟩
  · simp [defaultConstruct, State.newObject, State.object]
  · simp [length, defaultConstruct, State.newObject, State.object]

/-- C12: `operator==` is symmetric: `equals(a, b)` and `equals(b, a)` are the same
outcome in every state and for every two objects.  In a reachable state, when
both objects have a length (so each was built from bytes and is Inline, Exclusive
or Shared), both calls return, with the same boolean. -/
theorem equals_symmetric (st : State) (a b : Nat) :
    equals st a b = equals st b a ∧
    (Reachable st → ∀ la lb, length st a = .ok la → length st b = .ok lb →
      ∃ r, equals st a b = .ok r ∧ equals st b a = .ok r) := by
  refine ⟨equals_symm st a b, fun hr la lb hla hlb => ?_⟩
  obtain ⟨r, hr1⟩ := equals_returns hr.wf hla hlb
  exact ⟨r, hr1, by rw [equals_symm st b a]; exact hr1⟩

/-- C13: let object `a` have length `n` (so `a` was built from bytes) and let
`n ≤ i`.  Then `operator[]` throws `std::out_of_range`, and the state it leaves
behind is the state before the call: the alternative, the length and the bytes
of `a` are unchanged, no block and no resource was allocated, and `isSharing`
of `a` with any object is what it was, so a Shared `a` still shares with every
object it shared with. -/
theorem failed_subscript_is_atomic {st : State} {a i n : Nat} (hl : length st a = .ok n)
    (hi : n ≤ i) :
    subscript st a i = .error .outOfRange ∧
    ∃ st1, subscriptRun st a i = (st1, .error .outOfRange) ∧
      st1.object a = st.object a ∧ length st1 a = length st a ∧
      (∀ j, byteAt st1 a j = byteAt st a j) ∧
      st1.heap = st.heap ∧ st1.resources = st.resources ∧ st1.objects = st.objects ∧
      (∀ w, isSharing st1 a w = isSharing st a w) ∧
      (∀ w, isSharing st a w = .ok true → isSharing st1 a w = .ok true) := by
  refine ⟨(subscript_outOfRange_iff hl).2 hi, st, subscriptRun_outOfRange hl hi, rfl, rfl,
    fun _ => rfl, rfl, rfl, rfl, fun _ => rfl, fun _ h => h⟩

theorem failed_subscript_is_atomic_witness :
    subscript demoPair 0 256 = .error .outOfRange ∧
    ∃ st1, subscriptRun demoPair 0 256 = (st1, .error .outOfRange) ∧
      st1.object 0 = demoPair.object 0 ∧ length st1 0 = length demoPair 0 ∧
      (∀ j, byteAt st1 0 j = byteAt demoPair 0 j) ∧
      st1.heap = demoPair.heap ∧ st1.resources = demoPair.resources ∧
      st1.objects = demoPair.objects ∧
      (∀ w, isSharing st1 0 w = isSharing demoPair 0 w) ∧
      (∀ w, isSharing demoPair 0 w = .ok true → isSharing st1 0 w = .ok true) :=
  failed_subscript_is_atomic (by rfl) (Nat.le_refl 256)

/-- C14: in a reachable state let object `a` have length `n` (so `a` was built
from bytes).  Then the copy constructor returns a new object `b` with the same
alternative as `a`, the same length, and the same byte at every position below
the length, so `a == b` is true; the alternative, the length and every byte of
`a` are what they were before the copy. -/
theorem copyConstruct_copies {st : State} {a n : Nat} (hr : Reachable st)
    (hl : length st a = .ok n) :
    ∃ st1 b va vb, copyConstruct st a = .ok (st1, b) ∧ b ≠ a ∧
      st.object a = .ok va ∧ st1.object b = .ok vb ∧ vb.kind = va.kind ∧
      length st1 b = .ok n ∧ (∀ i, i < n → byteAt st1 b i = byteAt st a i) ∧
      equals st1 a b = .ok true ∧
      st1.object a = .ok va ∧ length st1 a = .ok n ∧ ∀ j, byteAt st1 a j = byteAt st a j := by
  have hwf := hr.wf
  obtain ⟨v, bs, ho, hval, hholds, rfl⟩ := holds_of_length hwf hl
  obtain ⟨st2, v1, hc⟩ := InnerImpls.copy_total hval
  obtain ⟨hx, hobj, -, hidx, -⟩ := InnerImpls.copy_spec hc
  have hcc : copyConstruct st a =
      .ok ({ st2 with objects := st2.objects ++ [v1] }, st2.objects.length) := by
    simp [copyConstruct, ho, hc, State.newObject]
  have hwf1 : State.WF { st2 with objects := st2.objects ++ [v1] } := copyConstruct_wf hwf hcc
  have ha2 : st2.object a = .ok v := by rw [object_congr hobj]; exact ho
  have ha1 : State.object { st2 with objects := st2.objects ++ [v1] } a = .ok v :=
    object_of_objects_append rfl ha2
  have hb1 : State.object { st2 with objects := st2.objects ++ [v1] } st2.objects.length =
      .ok v1 := object_of_objects_new rfl
  have hh1 : v1.Holds { st2 with objects := st2.objects ++ [v1] } bs :=
    (InnerImpls.copy_holds hc hholds).of_heap_eq rfl rfl
  have hx1 : st.Ext { st2 with objects := st2.objects ++ [v1] } :=
    ⟨hx.slack, hx.heap, hx.resources⟩
  have hframe := read_ext hwf hx1 (ha1.trans ho.symm)
  obtain ⟨hlb, hla, hbytes⟩ := holds_bytes_eq ho hholds hb1 hh1
  have hne : st2.objects.length ≠ a := by
    have := object_lt ha2; omega
  refine ⟨_, _, v, v1, hcc, hne, ho, hb1, kind_eq_of_index_eq hidx, hlb, hbytes, ?_, ha1,
    hframe.1.trans hl, hframe.2⟩
  refine equals_true_of_bytes hwf1 (hframe.1.trans hl) hlb (fun i hi => ?_)
  rw [hframe.2 i, hbytes i hi]

theorem copyConstruct_copies_witness :
    ∃ st1 b va vb, copyConstruct demoCompare 1 = .ok (st1, b) ∧ b ≠ 1 ∧
      demoCompare.object 1 = .ok va ∧ st1.object b = .ok vb ∧ vb.kind = va.kind ∧
      length st1 b = .ok 41 ∧ (∀ i, i < 41 → byteAt st1 b i = byteAt demoCompare 1 i) ∧
      equals st1 1 b = .ok true ∧
      st1.object 1 = .ok va ∧ length st1 1 = .ok 41 ∧
      ∀ j, byteAt st1 1 j = byteAt demoCompare 1 j :=
  copyConstruct_copies demoCompare_reachable rfl

/-- C15: in a reachable state let `d` be any object (of any alternative, also
Empty) and let the source `s` have length `n` (so `s` was built from bytes).
Then `d = s` returns; afterwards `d` holds the same alternative as `s`, has
length `n` and the same byte as `s` at every position below `n`, so `d == s` is
true; the alternative, the length and every byte of `s` are what they were.
The statement covers both branches of `operator=`, the rebuild when the
alternatives differ and the assignment in place when they match. -/
theorem assign_copies {st : State} {d s n : Nat} (hr : Reachable st)
    (hd : d < st.objects.length) (hl : length st s = .ok n) :
    ∃ st1 vs vd, assign st d s = .ok st1 ∧
      st.object s = .ok vs ∧ st1.object d = .ok vd ∧ vd.kind = vs.kind ∧
      length st1 d = .ok n ∧ (∀ i, i < n → byteAt st1 d i = byteAt st s i) ∧
      equals st1 d s = .ok true ∧
      st1.object s = .ok vs ∧ length st1 s = .ok n ∧ ∀ j, byteAt st1 s j = byteAt st s j := by
  have hwf := hr.wf
  obtain ⟨vs, bs, hs, hval, hholds, rfl⟩ := holds_of_length hwf hl
  by_cases hds : d = s
  · subst hds
    have hassign : assign st d d = .ok st := by
      have : assign st d d = .ok { st with objects := st.objects.set d vs } := by
        simp [assign, hs, InnerImpls.assignSame_self]
      rw [this, list_set_same (object_ok.1 hs)]
    exact ⟨st, vs, vs, hassign, hs, hs, rfl, hl, fun _ _ => rfl, by simp [equals], hs, hl,
      fun _ => rfl⟩
  · obtain ⟨vd0, hd0⟩ := object_of_lt hd
    obtain ⟨st2, v1, hassign, hx, hobj, -, hidx, hh2⟩ := assign_effect hds hd0 hs hval hholds
    have hwf1 : State.WF { st2 with objects := st2.objects.set d v1 } := assign_wf hwf hassign
    have hd1 : State.object { st2 with objects := st2.objects.set d v1 } d = .ok v1 :=
      object_set_self (by rw [hobj]; exact hd)
    have hs1 : State.object { st2 with objects := st2.objects.set d v1 } s = .ok vs := by
      rw [object_set_ne (Ne.symm hds), object_congr hobj]; exact hs
    have hh1 : v1.Holds { st2 with objects := st2.objects.set d v1 } bs :=
      hh2.of_heap_eq rfl rfl
    have hx1 : st.Ext { st2 with objects := st2.objects.set d v1 } :=
      ⟨hx.slack, hx.heap, hx.resources⟩
    have hframe := read_ext hwf hx1 (hs1.trans hs.symm)
    obtain ⟨hld, -, hbytes⟩ := holds_bytes_eq hs hholds hd1 hh1
    refine ⟨_, vs, v1, hassign, hs, hd1, kind_eq_of_index_eq hidx, hld, hbytes, ?_, hs1,
      hframe.1.trans hl, hframe.2⟩
    refine equals_true_of_bytes hwf1 hld (hframe.1.trans hl) (fun i hi => ?_)
    rw [hframe.2 i, hbytes i hi]

theorem assign_copies_witness :
    ∃ st1 vs vd, assign demoCompare 0 1 = .ok st1 ∧
      demoCompare.object 1 = .ok vs ∧ st1.object 0 = .ok vd ∧ vd.kind = vs.kind ∧
      length st1 0 = .ok 41 ∧ (∀ i, i < 41 → byteAt st1 0 i = byteAt demoCompare 1 i) ∧
      equals st1 0 1 = .ok true ∧
      st1.object 1 = .ok vs ∧ length st1 1 = .ok 41 ∧
      ∀ j, byteAt st1 1 j = byteAt demoCompare 1 j :=
  assign_copies demoCompare_reachable (by decide) rfl

/-- C16: let the destination `d` and the source `s` both be Shared.  Then `d = s`
returns without allocating anything; afterwards `d` holds the resource of `s`,
`isSharing(d, s)` is true, and for every third object `x` the value of
`isSharing(d, x)` is that of `isSharing(s, x)`.  An object `e` that shared with
`d` before and does not share with `s` no longer shares with `d`, and its
alternative, length and bytes are unchanged. -/
theorem shared_assign_rebinds {st : State} {d s : Nat} {cd cs : CopyOnWriteImpl}
    (hd : st.object d = .ok (.copyOnWrite cd)) (hs : st.object s = .ok (.copyOnWrite cs)) :
    ∃ st1, assign st d s = .ok st1 ∧
      st1.object d = .ok (.copyOnWrite cs) ∧ st1.object s = .ok (.copyOnWrite cs) ∧
      st1.heap = st.heap ∧ st1.resources = st.resources ∧
      isSharing st1 d s = .ok true ∧
      (∀ x, x ≠ d → isSharing st1 d x = isSharing st1 s x ∧
        isSharing st1 s x = isSharing st s x) ∧
      (∀ e, e ≠ d → isSharing st d e = .ok true → isSharing st s e = .ok false →
        isSharing st1 d e = .ok false ∧ st1.object e = st.object e ∧
        length st1 e = length st e ∧ ∀ j, byteAt st1 e j = byteAt st e j) := by
  have hassign : assign st d s =
      .ok { st with objects := st.objects.set d (.copyOnWrite cs) } := by
    by_cases hds : d = s
    · subst hds
      rw [hd] at hs
      simp only [Except.ok.injEq, InnerImpls.copyOnWrite.injEq] at hs
      subst hs
      simp [assign, hd, InnerImpls.assignSame, CopyOnWriteImpl.assign]
    · simp [assign, hd, hs, InnerImpls.index, InnerImpls.assignSame, CopyOnWriteImpl.assign, hds]
  have hd1 : State.object { st with objects := st.objects.set d (.copyOnWrite cs) } d =
      .ok (.copyOnWrite cs) := object_set_self (object_lt hd)
  have hs1 : State.object { st with objects := st.objects.set d (.copyOnWrite cs) } s =
      .ok (.copyOnWrite cs) := by
    by_cases hds : s = d
    · rw [hds]; exact hd1
    · rw [object_set_ne hds]; exact hs
  have hother : ∀ x, x ≠ d →
      State.object { st with objects := st.objects.set d (.copyOnWrite cs) } x = st.object x :=
    fun x hx => object_set_ne hx
  refine ⟨_, hassign, hd1, hs1, rfl, rfl, isSharing_true_iff.2 ⟨cs, cs, hd1, hs1, rfl⟩,
    fun x hx => ⟨isSharing_congr (hd1.trans hs1.symm) rfl,
      isSharing_congr (hs1.trans hs.symm) (hother x hx)⟩,
    fun e he _ hse => ⟨?_, hother e he, read_congr rfl rfl rfl (hother e he)⟩⟩
  rw [isSharing_congr (hd1.trans hs.symm) (hother e he)]
  exact hse

theorem shared_assign_rebinds_witness :
    ∃ st1, assign demoRebind 0 3 = .ok st1 ∧
      st1.object 0 = .ok (.copyOnWrite { res := 1 }) ∧
      st1.object 3 = .ok (.copyOnWrite { res := 1 }) ∧
      st1.heap = demoRebind.heap ∧ st1.resources = demoRebind.resources ∧
      isSharing st1 0 3 = .ok true ∧
      (∀ x, x ≠ 0 → isSharing st1 0 x = isSharing st1 3 x ∧
        isSharing st1 3 x = isSharing demoRebind 3 x) ∧
      (∀ e, e ≠ 0 → isSharing demoRebind 0 e = .ok true → isSharing demoRebind 3 e = .ok false →
        isSharing st1 0 e = .ok false ∧ st1.object e = demoRebind.object e ∧
        length st1 e = length demoRebind e ∧ ∀ j, byteAt st1 e j = byteAt demoRebind e j) :=
  @shared_assign_rebinds demoRebind 0 3 _ _ rfl rfl

/-- C17: in a reachable state let `a` be Inline or Exclusive.  Then `a` is
independent of every other Inline or Exclusive object `b`: a write `b[i] = c`
leaves the alternative, the length and every byte of `a` unchanged, and a write
`a[i] = c` does the same for `b`.  This holds in particular for an object `b`
copy-constructed from `a` and for an object `b` that `a` was assigned to.  Two
different Exclusive objects never hold the same block, and a write at a
position below the length returns. -/
theorem unshared_copies_independent {st : State} {a : Nat} {va : InnerImpls}
    (hr : Reachable st) (ha : st.object a = .ok va)
    (hk : va.kind = .inline ∨ va.kind = .exclusive) :
    (∀ b vb, b ≠ a → st.object b = .ok vb → (vb.kind = .inline ∨ vb.kind = .exclusive) →
      Independent st a b) ∧
    (∀ st1 b, copyConstruct st a = .ok (st1, b) →
      b ≠ a ∧ (∃ vb, st1.object b = .ok vb ∧ vb.kind = va.kind) ∧ Independent st1 a b) ∧
    (∀ st1 b, b ≠ a → assign st b a = .ok st1 →
      (∃ vb, st1.object b = .ok vb ∧ vb.kind = va.kind) ∧ Independent st1 a b) ∧
    (∀ b ea eb, b ≠ a → va = .eagerCopy ea → st.object b = .ok (.eagerCopy eb) →
      ea.start ≠ eb.start) ∧
    (∀ i c n, length st a = .ok n → i < n → ∃ st1, write st a i c = .ok st1) := by
  have hns := kind_not_shared hk
  refine ⟨fun b vb hba hb hkb => ?_, fun st1 b hc => ?_, fun st1 b hba hc => ?_,
    fun b ea eb hba hea hb => ?_, fun i c n hl hi => ?_⟩
  · exact independent_of_unshared hr.unaliased (Ne.symm hba) ha hns hb (kind_not_shared hkb)
  · obtain ⟨r, v, hr0, hbeq, -, hobj, -, hidx, -, -⟩ := copyConstruct_spec hc
    have hrv : r = va := by
      rw [object_ok.1 ha] at hr0
      exact (Option.some.inj hr0).symm
    subst hrv
    have hne : b ≠ a := by have := object_lt ha; omega
    have hb1 : st1.object b = .ok v := by rw [hbeq]; exact object_of_objects_new hobj
    have ha1 : st1.object a = .ok r := object_of_objects_append hobj ha
    have hkv : v.kind = r.kind := kind_eq_of_index_eq hidx
    refine ⟨hne, ⟨v, hb1, hkv⟩, ?_⟩
    exact independent_of_unshared (Reachable.copyConstruct hr hc).unaliased (Ne.symm hne) ha1
      hns hb1 (by rw [hkv]; exact hns)
  · obtain ⟨v, r, v1, st2, hv, hr0, -, hobj, -, hst, -, hne, heq⟩ := assign_spec hc
    have hrv : r = va := by
      rw [object_ok.1 ha] at hr0
      exact (Option.some.inj hr0).symm
    subst hrv
    have hidx : v1.index = r.index := by
      by_cases hi : v.index = r.index
      · exact ((InnerImpls.assignSame_spec (heq hi)).2.2.2.1).trans hi
      · obtain ⟨st3, tmp, hc1, hc2⟩ := hne hi
        exact ((InnerImpls.copy_spec hc2).2.2.2.1).trans (InnerImpls.copy_spec hc1).2.2.2.1
    have hblt : b < st.objects.length := (List.getElem?_eq_some_iff.1 hv).1
    have hb1 : st1.object b = .ok v1 := by
      rw [hst]; exact object_ok.2 (by simp [List.getElem?_set, hblt])
    have ha1 : st1.object a = .ok r := by
      rw [hst]
      exact object_ok.2 (by simp [List.getElem?_set, hba, object_ok.1 ha])
    have hkv : v1.kind = r.kind := kind_eq_of_index_eq hidx
    refine ⟨⟨v1, hb1, hkv⟩, ?_⟩
    exact independent_of_unshared (Reachable.assign hr hc).unaliased (Ne.symm hba) ha1 hns hb1
      (by rw [hkv]; exact hns)
  · subst hea
    exact hr.unaliased a b ea eb (Ne.symm hba) (object_ok.1 ha) (object_ok.1 hb)
  · exact write_returns_unshared c hr.wf ha hns hl hi

theorem unshared_copies_independent_witness :
    (∀ b vb, b ≠ 1 → demoCompare.object b = .ok vb →
      (vb.kind = .inline ∨ vb.kind = .exclusive) → Independent demoCompare 1 b) ∧
    (∀ st1 b, copyConstruct demoCompare 1 = .ok (st1, b) →
      b ≠ 1 ∧ (∃ vb, st1.object b = .ok vb ∧
        vb.kind = (InnerImpls.eagerCopy { size := 41, capacity := 41, start := 2 }).kind) ∧
      Independent st1 1 b) ∧
    (∀ st1 b, b ≠ 1 → assign demoCompare b 1 = .ok st1 →
      (∃ vb, st1.object b = .ok vb ∧
        vb.kind = (InnerImpls.eagerCopy { size := 41, capacity := 41, start := 2 }).kind) ∧
      Independent st1 1 b) ∧
    (∀ b ea eb, b ≠ 1 →
      InnerImpls.eagerCopy { size := 41, capacity := 41, start := 2 } = .eagerCopy ea →
      demoCompare.object b = .ok (.eagerCopy eb) → ea.start ≠ eb.start) ∧
    (∀ i c n, length demoCompare 1 = .ok n → i < n → ∃ st1, write demoCompare 1 i c = .ok st1) :=
  unshared_copies_independent demoCompare_reachable rfl (Or.inr rfl)

/-- C18: every `ShortStringOptImpl` of a reachable state has
`size ≤ topThreshold = 16`, the number of cells of its `buf`; more precisely
`size` counts initialised cells and these lie inside the array.  An object that
the constructor builds as Inline holds exactly the `strlen(str)` bytes it
copied, at most 16.  For `YHString.cc` (`topThreshold = 23`, `bufSize = 24` with
8-byte pointers) the Inline branch of the constructor copies `strlen(str) ≤ 23`
bytes into the 24 cells, and its copy constructor and `operator=` keep `size`
inside the array. -/
theorem inline_capacity_invariant :
    (∀ (st : State) (a : Nat) (s : ShortStringOptImpl), Reachable st →
      st.object a = .ok (.shortStringOpt s) →
      s.size ≤ topThreshold ∧ s.Fits topThreshold) ∧
    topThreshold = 16 ∧
    (∀ (st st1 : State) (str : List Byte) (a : Nat) (s : ShortStringOptImpl),
      construct st str = .ok (st1, a) → st1.object a = .ok (.shortStringOpt s) →
      strlen str = some s.size ∧ s.buf = str.take s.size ∧ s.size ≤ topThreshold) ∧
    ccTopThreshold = 23 ∧ ccBufSize = 24 ∧
    (∀ (str : List Byte) (n : Nat), strlen str = some n → n ≤ ccTopThreshold →
      ∃ s, ccConstructInline str = .ok (some s) ∧ s.size = n ∧ s.buf = str.take n ∧
        s.size ≤ ccBufSize ∧ s.Fits ccBufSize) ∧
    (∀ (str : List Byte) (n : Nat), strlen str = some n → ¬ n ≤ ccTopThreshold →
      ccConstructInline str = .ok none) ∧
    (∀ (cap : Nat) (s r : ShortStringOptImpl) (same : Bool), s.Fits cap → r.Fits cap →
      (∃ s1, r.copyCap cap = .ok s1 ∧ s1.Fits cap) ∧
      (∃ s1, s.assignCap cap r same = .ok s1 ∧ s1.Fits cap)) := by
  refine ⟨fun st a s hr ho => ?_, rfl, fun st st1 str a s hc ho => ?_, rfl, rfl,
    fun str n hs hn => ?_, fun str n hs hn => ?_, fun cap s r same hs hr => ⟨?_, ?_⟩⟩
  · have hv := hr.wf.objects _ (mem_of_getElem? (object_ok.1 ho))
    exact ⟨Nat.le_trans hv.1 hv.2, hv⟩
  · obtain ⟨n, hs⟩ := construct_ok_strlen hc
    rw [construct_of_strlen st hs] at hc
    simp only [Except.ok.injEq] at hc
    split at hc
    · rename_i h1
      simp only [Prod.mk.injEq] at hc
      obtain ⟨rfl, rfl⟩ := hc
      rw [object_append_new] at ho
      simp only [Except.ok.injEq, InnerImpls.shortStringOpt.injEq] at ho
      subst ho
      exact ⟨hs, rfl, h1⟩
    · split at hc
      · simp only [Prod.mk.injEq] at hc
        obtain ⟨rfl, rfl⟩ := hc
        rw [object_of_objects_new rfl] at ho
        simp at ho
      · simp only [Prod.mk.injEq] at hc
        obtain ⟨rfl, rfl⟩ := hc
        rw [object_of_objects_new rfl] at ho
        simp at ho
  · have hcap : n ≤ ccBufSize := Nat.le_trans hn (by decide)
    obtain ⟨tmp, htmp, hsz, hbuf, hfit⟩ := ShortStringOptImpl.ofCStrCap_fits hs hcap
    obtain ⟨s, hcopy, hsz2, hbuf2, hfit2⟩ := ShortStringOptImpl.copyCap_fits hfit
    refine ⟨s, ?_, hsz2.trans hsz, ?_, ?_, hfit2⟩
    · simp [ccConstructInline, cStrlen, hs, hn, htmp, hcopy]
    · rw [hbuf2, hbuf, hsz, List.take_take, Nat.min_self]
    · rw [hsz2, hsz]; exact hcap
  · simp [ccConstructInline, cStrlen, hs, hn]
  · obtain ⟨s1, h1, -, -, h2⟩ := ShortStringOptImpl.copyCap_fits hr
    exact ⟨s1, h1, h2⟩
  · exact ShortStringOptImpl.assignCap_fits same hs hr

/-- C19: in a reachable state, if `isSharing(a, b)` is true then `a` and `b` have
the same length, the same `data()` pointer, and `a == b` is true. -/
theorem sharing_implies_equal {st : State} {a b : Nat} (hr : Reachable st)
    (hs : isSharing st a b = .ok true) :
    ∃ n, length st a = .ok n ∧ length st b = .ok n ∧ data st a = data st b ∧
      (∀ i, byteAt st a i = byteAt st b i) ∧ equals st a b = .ok true := by
  obtain ⟨ca, cb, ha, hb, hres⟩ := isSharing_true_iff.1 hs
  have hwf := hr.wf
  have hlt : ca.res < st.resources.length := hwf.objects _ (mem_of_getElem? (object_ok.1 ha))
  have hrs : st.resource ca.res = .ok st.resources[ca.res] :=
    resource_ok.2 (List.getElem?_eq_getElem hlt)
  have hrs' : st.resource cb.res = .ok st.resources[ca.res] := by rw [← hres]; exact hrs
  have hla : length st a = .ok (st.resources[ca.res]).size := by simp [length, ha, hrs]
  have hlb : length st b = .ok (st.resources[ca.res]).size := by simp [length, hb, hrs']
  have hd : data st a = data st b := by simp [data, ha, hb, hrs, hrs']
  have hbytes : ∀ i, byteAt st a i = byteAt st b i := fun i => by simp [byteAt, hd]
  exact ⟨_, hla, hlb, hd, hbytes, equals_true_of_bytes hwf hla hlb (fun i _ => hbytes i)⟩

theorem sharing_implies_equal_witness :
    ∃ n, length demoPair 0 = .ok n ∧ length demoPair 1 = .ok n ∧
      data demoPair 0 = data demoPair 1 ∧
      (∀ i, byteAt demoPair 0 i = byteAt demoPair 1 i) ∧ equals demoPair 0 1 = .ok true :=
  sharing_implies_equal demoPair_reachable (by rfl)

end YHString
